import Mathlib

/-!
Verification development for the `splitby` pipeline.

This file gives a shallow embedding, in Lean 4, of the core of the
`splitby` program: the selection resolver (`resolve_index`,
`normalise_selection`, `invert_selections` from
`src/transform/worker_utilities.rs`), the byte and field composers
(`src/transform/process_bytes.rs`, `src/transform/process_fields.rs`),
the worker loop (`process_records` from `src/transform/mod.rs`) and the
ordered collector (`get_results` from `src/output/mod.rs`).

Modelling conventions:
- Rust byte buffers (`Vec<u8>`, `&[u8]`) are `List Nat`;
- Rust `i32` values are `Int`, with the `as i32` truncating cast of a
  `usize` modelled explicitly by `wrap32`;
- fallible Rust functions returning `Result<_, String>` are
  `Except String _`; a Rust panic (an out-of-bounds slice index) is
  modelled as a distinguished `.error` value;
- the external regex matcher is out of scope for the program spec: it is
  modelled by the list of delimiter spans (byte ranges) it yields, and
  `bytes_to_cow_string` is the identity on the (valid UTF-8) records the
  claims are about;
- the collector's `BufWriter` is modelled by the pair of the bytes
  already flushed to the writer and the bytes still in `output_buffer`;
  flushing moves bytes from the buffer to the writer without reordering.
-/

namespace Splitby

/-- `InputMode` from `src/types.rs`. -/
inductive InputMode where
  | PerLine
  | WholeString
  | ZeroTerminated
deriving DecidableEq

/-- `JoinMode` from `src/types.rs`. -/
inductive JoinMode where
  | String (bytes : List Nat)
  | Auto
  | AfterPrevious
  | BeforeNext
  | First
  | Last
  | Space
  | None
deriving DecidableEq

/-- `Record` from `src/types.rs` (the fields used by the transform stage:
`join_widths` is never read by `src/transform/process_fields.rs` and is
omitted). -/
structure Record where
  index : Nat
  bytes : List Nat
  has_terminator : Bool
  field_widths : Option (List Nat)
deriving DecidableEq

/-- `OutputRecord` from `src/types.rs`. -/
structure OutputRecord where
  bytes : List Nat
  has_terminator : Bool
deriving DecidableEq

/-- `ResultChunk` from `src/types.rs`. -/
inductive ResultChunk where
  | ok (start_index : Nat) (outputs : List OutputRecord)
  | err (index : Nat) (error : String)
deriving DecidableEq

/-- `TransformInstructions` from `src/types.rs` (the compiled regex engine
is replaced by the delimiter spans it yields, passed to `process_fields`
directly; `align` and `ansi_strip_regex` are used only by the width
scanner, not by the transform functions modelled here). -/
structure TransformInstructions where
  input_mode : InputMode
  selections : List (Int × Int)
  invert : Bool
  skip_empty : Bool
  placeholder : Option (List Nat)
  strict_return : Bool
  strict_bounds : Bool
  strict_range_order : Bool
  strict_utf8 : Bool
  count : Bool
  join : Option JoinMode
deriving DecidableEq

/-- `OutputInstructions` from `src/types.rs` (the output path is omitted:
the writer is modelled as a byte sink). -/
structure OutputInstructions where
  count : Bool
  strict_return : Bool
  strict_bounds : Bool
  input_mode : InputMode
  selections : List (Int × Int)
deriving DecidableEq

/-! ## Selection resolver (`src/transform/worker_utilities.rs`) -/

/-- `i32::MAX`, the `MAX_SAFE_LEN` constant of `resolve_index`. -/
def MAX_SAFE_LEN : Nat := 2147483647

/-- The truncating Rust cast `len as i32` of a `usize`: reduce modulo
`2^32` and reinterpret as a signed 32-bit value. -/
def wrap32 (n : Nat) : Int :=
  let m : Int := (n : Int) % 4294967296
  if m < 2147483648 then m else m - 4294967296

/-- `resolve_index` from `src/transform/worker_utilities.rs`. -/
def resolve_index (raw_index : Int) (len : Nat) : Except String Int :=
  if raw_index > 0 then
    .ok (raw_index - 1)
  else if len > MAX_SAFE_LEN then
    .error "input too large"
  else
    .ok ((len : Int) + raw_index)

/-- `normalise_selection` from `src/transform/worker_utilities.rs`.
Every `length as i32` cast of the source is rendered by `wrap32`; the
final `as usize` casts are `Int.toNat` (on each path that returns, the
value cast is non-negative, so the two casts agree). -/
def normalise_selection (raw_start raw_end : Int) (length : Nat)
    (is_placeholder strict_bounds strict_range_order : Bool) :
    Except String (Option (Nat × Nat)) :=
  if strict_bounds ∧ (raw_start = 0 ∨ raw_end = 0) then
    .error "selections are 1-based, 0 is an invalid index"
  else
    match resolve_index raw_start length with
    | .error e => .error e
    | .ok start =>
    match resolve_index raw_end length with
    | .error e => .error e
    | .ok e =>
    if start > e then
      if strict_range_order then
        .error "end index is less than start index"
      else
        .ok none
    else if strict_bounds then
      if length = 0 then
        .error "strict bounds error: no valid fields to select"
      else if start < 0 ∨ start ≥ wrap32 length then
        .error "strict bounds error: start index out of bounds"
      else if e < 0 ∨ e ≥ wrap32 length then
        .error "strict bounds error: end index out of bounds"
      else
        .ok (some (start.toNat, e.toNat))
    else
      if e < 0 then
        .ok none
      else if is_placeholder then
        .ok (some ((max start 0).toNat, (max e 0).toNat))
      else if start ≥ wrap32 length then
        .ok none
      else
        .ok (some ((min (max start 0) (wrap32 (length - 1))).toNat,
                   (min (max e 0) (wrap32 (length - 1))).toNat))

/-- `normalise_selections` from `src/transform/worker_utilities.rs`:
normalise each selection, keeping ranges, skipping dropped selections,
propagating the first error. -/
def normalise_selections (selections : List (Int × Int)) (length : Nat)
    (is_placeholder is_strict_bounds is_strict_range_order : Bool) :
    Except String (List (Nat × Nat)) :=
  match selections with
  | [] => .ok []
  | (s, e) :: rest =>
    match normalise_selection s e length is_placeholder is_strict_bounds
        is_strict_range_order with
    | .error err => .error err
    | .ok none =>
        normalise_selections rest length is_placeholder is_strict_bounds
          is_strict_range_order
    | .ok (some range) =>
        match normalise_selections rest length is_placeholder is_strict_bounds
            is_strict_range_order with
        | .error err => .error err
        | .ok tail => .ok (range :: tail)

/-- The comparator of `invert_selections`'s sort:
`start_a.cmp(start_b).then(end_a.cmp(end_b))` as a `≤` relation. -/
def selLE (a b : Nat × Nat) : Prop :=
  a.1 < b.1 ∨ (a.1 = b.1 ∧ a.2 ≤ b.2)

instance : DecidableRel selLE := fun a b => by
  unfold selLE; infer_instance

/-- The sort step of `invert_selections`. Rust's `sort_by` is a stable
sort; `List.insertionSort` is also stable, so both produce the same
list for the total preorder `selLE`. -/
def sortSelections (rs : List (Nat × Nat)) : List (Nat × Nat) :=
  List.insertionSort selLE rs

/-- The merge loop of `invert_selections`: `cur` is the last range pushed
onto `merged` (the source mutates `merged.last_mut()`; every earlier
pushed range is final, so carrying only the last one is the same
computation). -/
def mergeLoop (cur : Nat × Nat) : List (Nat × Nat) → List (Nat × Nat)
  | [] => [cur]
  | (s, e) :: rest =>
    if s ≤ cur.2 then
      mergeLoop (cur.1, max cur.2 e) rest
    else
      cur :: mergeLoop (s, e) rest

/-- The merge step of `invert_selections`. -/
def mergeRanges : List (Nat × Nat) → List (Nat × Nat)
  | [] => []
  | r :: rest => mergeLoop r rest

/-- The complement-building loop of `invert_selections`:
`invert_pointer` walks the merged list, emitting the gap before each
merged range and finally the gap before `length`.  `saturating_sub`
is Nat subtraction. -/
def invertLoop (pointer length : Nat) : List (Nat × Nat) → List (Nat × Nat)
  | [] => if pointer < length then [(pointer, length - 1)] else []
  | (s, e) :: rest =>
    (if s > pointer then [(pointer, s - 1)] else []) ++
      invertLoop (e + 1) length rest

/-- `invert_selections` from `src/transform/worker_utilities.rs`:
sort, merge, then build the complement against `[0, length-1]`. -/
def invert_selections (normalised_selections : List (Nat × Nat))
    (length : Nat) : List (Nat × Nat) :=
  invertLoop 0 length (mergeRanges (sortSelections normalised_selections))

/-- The set of unit indices a list of inclusive ranges covers. -/
def Covers (rs : List (Nat × Nat)) (i : Nat) : Prop :=
  ∃ p ∈ rs, p.1 ≤ i ∧ i ≤ p.2

instance (rs : List (Nat × Nat)) (i : Nat) : Decidable (Covers rs i) := by
  unfold Covers; infer_instance

/-! ## Shared small helpers -/

/-- The index list of the Rust loop `for i in s..=e`, written as a start
and a count: `rangeList s n = [s, s+1, …, s+n-1]` (so `s..=e` is
`rangeList s (e + 1 - s)`, empty when `e < s`). -/
def rangeList (s : Nat) : Nat → List Nat
  | 0 => []
  | n + 1 => s :: rangeList (s + 1) n

/-- Concatenate the images of `f` (the repeated `output.extend_from_slice`
pattern of the source loops). -/
def catMap (f : α → List β) : List α → List β
  | [] => []
  | a :: l => f a ++ catMap f l

/-- Decimal ASCII bytes of a count (`count.to_string().into_bytes()`). -/
def decimalBytes (n : Nat) : List Nat :=
  (toString n).toList.map Char.toNat

/-! ## Byte composer (`src/transform/process_bytes.rs`) -/

/-- `process_bytes` from `src/transform/process_bytes.rs`. -/
def process_bytes (ti : TransformInstructions) (record : Record) :
    Except String (List Nat) :=
  let bytes := record.bytes
  let byte_length := bytes.length
  if ti.count then
    .ok (decimalBytes byte_length)
  else if byte_length = 0 then
    if ti.strict_return then
      .error "strict returns error: empty record"
    else if ti.strict_bounds ∧ ti.selections ≠ [] then
      .error "strict bounds error: empty record"
    else
      .ok []
  else
    match normalise_selections ti.selections byte_length
        ti.placeholder.isSome ti.strict_bounds ti.strict_range_order with
    | .error e => .error e
    | .ok normalised_selections =>
      let selections :=
        if ti.selections = [] then
          [(0, byte_length - 1)]
        else if ¬ti.invert then
          normalised_selections
        else
          invert_selections normalised_selections byte_length
      let output :=
        catMap (fun (p : Nat × Nat) =>
          catMap (fun i =>
            if i < byte_length then
              [bytes.getD i 0]
            else
              match ti.placeholder with
              | some placeholder => placeholder
              | none => [])
            (rangeList p.1 (p.2 + 1 - p.1)))
          selections
      if ti.strict_return ∧ output = [] then
        .error "strict returns error: no valid output"
      else
        .ok output

/-! ## Field splitter and composer (`src/transform/process_fields.rs`) -/

/-- `Field` from `src/transform/worker_utilities.rs`: a field's text and
its trailing delimiter, both byte slices of the record. -/
structure Field where
  text : List Nat
  delimiter : List Nat
deriving DecidableEq

/-- The Rust slice `text[a..b]`. -/
def slice (l : List Nat) (a b : Nat) : List Nat :=
  (l.drop a).take (b - a)

/-- The `find_iter` loop of `process_fields`: each delimiter span
`(s, e)` yields the field `text[cursor..s]` with delimiter `text[s..e]`,
moving the cursor to `e`.  Returns the fields and the final cursor. -/
def splitLoop (text : List Nat) (cursor : Nat) :
    List (Nat × Nat) → List Field × Nat
  | [] => ([], cursor)
  | (s, e) :: rest =>
    let r := splitLoop text e rest
    (⟨slice text cursor s, slice text s e⟩ :: r.1, r.2)

/-- Splitting a record into fields, as `process_fields` does before
composing: run the matcher spans, append the final field after the last
delimiter (skipped in whole-string mode when empty), then apply the
`skip_empty` filter. -/
def fieldsOf (ti : TransformInstructions) (text : List Nat)
    (spans : List (Nat × Nat)) : List Field :=
  let r := splitLoop text 0 spans
  let final_text := slice text r.2 text.length
  let fs := r.1 ++
    (if final_text ≠ [] ∨ ti.input_mode ≠ InputMode.WholeString then
      [⟨final_text, []⟩] else [])
  if ti.skip_empty then fs.filter (fun f => f.text ≠ []) else fs

/-- State threaded through the composer loop of `process_fields`. -/
structure ComposeState where
  output : List Nat
  strict_return_passed : Bool
  field_position : Nat
deriving DecidableEq

/-- One iteration of the inner `for field_index in selection.0..=selection.1`
loop of `process_fields`.  `is_last_sel` says the current selection is the
last one; the unguarded `fields[field_index].delimiter` access of the
source (reached whenever the emitted unit is not the last one) is
modelled as a panic error when `field_index` is out of bounds. -/
def emitIndex (ti : TransformInstructions) (fields : List Field)
    (first_delimiter last_delimiter : List Nat)
    (max_widths : Option (List Nat)) (is_last_sel : Bool) (sel_end : Nat)
    (i : Nat) (st : ComposeState) : Except String ComposeState :=
  let has_data := i < fields.length ∨ (ti.placeholder.isSome ∧ ¬ti.invert)
  if ¬has_data then
    .ok st
  else
    let r :=
      if i < fields.length then
        let t := (fields.getD i ⟨[], []⟩).text
        if t ≠ [] then (t, true) else ([], st.strict_return_passed)
      else
        match ti.placeholder with
        | some placeholder => (placeholder, true)
        | none => ([], st.strict_return_passed)
    let is_last := is_last_sel ∧ i = sel_end
    if is_last then
      .ok { st with output := st.output ++ r.1, strict_return_passed := r.2 }
    else if i < fields.length then
      let current_delimiter := (fields.getD i ⟨[], []⟩).delimiter
      let next_delimiter :=
        if i < fields.length - 1 then (fields.getD (i + 1) ⟨[], []⟩).delimiter
        else []
      let join :=
        match ti.join with
        | some (JoinMode.String join_bytes) => join_bytes
        | some JoinMode.AfterPrevious =>
          if current_delimiter ≠ [] then current_delimiter else [32]
        | some JoinMode.BeforeNext =>
          if next_delimiter ≠ [] then next_delimiter else [32]
        | some JoinMode.First =>
          if first_delimiter ≠ [] then first_delimiter else [32]
        | some JoinMode.Last =>
          if last_delimiter ≠ [] then last_delimiter else [32]
        | some JoinMode.Space => [32]
        | some JoinMode.None => []
        | none | some JoinMode.Auto =>
          if current_delimiter ≠ [] then current_delimiter
          else if next_delimiter ≠ [] then next_delimiter
          else if first_delimiter ≠ [] then first_delimiter
          else [32]
      let padding :=
        match max_widths with
        | some mw =>
          if st.field_position < mw.length then
            let max_field_width := mw.getD st.field_position 0
            let current_field_width :=
              if i < fields.length then
                (fields.getD i ⟨[], []⟩).text.length
              else
                match ti.placeholder with
                | some placeholder => placeholder.length
                | none => 0
            List.replicate (max_field_width - current_field_width) 32
          else []
        | none => []
      .ok { output := st.output ++ r.1 ++ join ++ padding,
            strict_return_passed := r.2,
            field_position := st.field_position + 1 }
    else
      .error "panic: index out of bounds"

/-- The inner index loop of `process_fields` over one selection. -/
def composeIndices (ti : TransformInstructions) (fields : List Field)
    (first_delimiter last_delimiter : List Nat)
    (max_widths : Option (List Nat)) (is_last_sel : Bool) (sel_end : Nat) :
    List Nat → ComposeState → Except String ComposeState
  | [], st => .ok st
  | i :: rest, st =>
    match emitIndex ti fields first_delimiter last_delimiter max_widths
        is_last_sel sel_end i st with
    | .error e => .error e
    | .ok st' =>
      composeIndices ti fields first_delimiter last_delimiter max_widths
        is_last_sel sel_end rest st'

/-- The outer selection loop of `process_fields`. -/
def composeLoop (ti : TransformInstructions) (fields : List Field)
    (first_delimiter last_delimiter : List Nat)
    (max_widths : Option (List Nat)) :
    List (Nat × Nat) → ComposeState → Except String ComposeState
  | [], st => .ok st
  | sel :: rest, st =>
    match composeIndices ti fields first_delimiter last_delimiter max_widths
        (rest = []) sel.2 (rangeList sel.1 (sel.2 + 1 - sel.1)) st with
    | .error e => .error e
    | .ok st' =>
      composeLoop ti fields first_delimiter last_delimiter max_widths rest st'

/-- `process_fields` from `src/transform/process_fields.rs`.  The regex
engine is represented by the delimiter spans it yields over the record's
text; `bytes_to_cow_string` is the identity on valid UTF-8 records (its
lossy/strict behaviour concerns invalid UTF-8, outside these claims), so
the record's bytes stand for the decoded text. -/
def process_fields (ti : TransformInstructions) (record : Record)
    (spans : List (Nat × Nat)) : Except String (List Nat) :=
  let text := record.bytes
  let fields := fieldsOf ti text spans
  if ti.count then
    .ok (decimalBytes fields.length)
  else if fields = [] then
    .ok []
  else
    match normalise_selections ti.selections fields.length
        ti.placeholder.isSome ti.strict_bounds ti.strict_range_order with
    | .error e => .error e
    | .ok normalised_selections =>
      let selections :=
        if ti.selections = [] then
          [(0, fields.length - 1)]
        else if ¬ti.invert then
          normalised_selections
        else
          invert_selections normalised_selections fields.length
      let first_delimiter :=
        ((fields.find? (fun f => f.delimiter ≠ [])).map Field.delimiter).getD []
      let last_delimiter :=
        ((fields.reverse.find? (fun f => f.delimiter ≠ [])).map
          Field.delimiter).getD []
      match composeLoop ti fields first_delimiter last_delimiter
          record.field_widths selections ⟨[], false, 0⟩ with
      | .error e => .error e
      | .ok st =>
        if ti.strict_return ∧ ¬st.strict_return_passed then
          .error "strict returns error: no valid output"
        else
          .ok st.output

/-! ## Worker loop (`src/transform/mod.rs`) -/

/-- The per-record outcome inside the worker loop of `process_records`:
run the record's processing (`process_bytes` / `process_chars` /
`process_fields` according to the selection mode — abstracted as `proc`,
since the chars/fields splitters depend on the external matcher), then
apply the worker's own `strict_return && bytes.is_empty()` check. -/
def recordOutcome (proc : Record → Except String (List Nat))
    (strict_return : Bool) (record : Record) : Except String (List Nat) :=
  match proc record with
  | .ok bytes =>
    if strict_return ∧ bytes = [] then
      .error "strict return error: empty field"
    else
      .ok bytes
  | .error e => .error e

/-- The batch loop body of `process_records`: process records in order,
accumulating outputs; stop at the first failure, reporting the failing
record's index. -/
def runBatch (proc : Record → Except String (List Nat))
    (strict_return : Bool) :
    List Record → Except (Nat × String) (List OutputRecord)
  | [] => .ok []
  | record :: rest =>
    match recordOutcome proc strict_return record with
    | .error e => .error (record.index, e)
    | .ok bytes =>
      match runBatch proc strict_return rest with
      | .error e => .error e
      | .ok outputs => .ok (⟨bytes, record.has_terminator⟩ :: outputs)

/-- `process_records` from `src/transform/mod.rs`, as the trace of result
chunks the worker sends: empty batches are skipped; a fully successful
batch sends one `Ok` chunk tagged with the batch's first record index; the
first per-record failure sends one `Err` chunk tagged with the failing
record's index and the worker stops (no later batch is processed). -/
def process_records (proc : Record → Except String (List Nat))
    (strict_return : Bool) : List (List Record) → List ResultChunk
  | [] => []
  | [] :: batches => process_records proc strict_return batches
  | (record :: rest) :: batches =>
    match runBatch proc strict_return (record :: rest) with
    | .error e => [ResultChunk.err e.1 e.2]
    | .ok outputs =>
      ResultChunk.ok record.index outputs ::
        process_records proc strict_return batches

/-! ## Ordered collector (`src/output/mod.rs`) -/

/-- The record terminator chosen at the top of `get_results`. -/
def record_terminator : InputMode → Option Nat
  | InputMode.PerLine => some 10
  | InputMode.ZeroTerminated => some 0
  | InputMode.WholeString => none

/-- Bytes one output record contributes to the stream: its bytes, then
the terminator byte when the mode has one and the record had one. -/
def emit_record (t : Option Nat) (r : OutputRecord) : List Nat :=
  r.bytes ++
    (match t with
     | some b => if r.has_terminator then [b] else []
     | none => [])

/-- Appending one record to the `(written, output_buffer)` pair of the
collector, flushing the buffer to the writer once it reaches the flush
threshold (flushing moves bytes, never reorders them). -/
def push_pair (threshold : Nat) (t : Option Nat) (wb : List Nat × List Nat)
    (r : OutputRecord) : List Nat × List Nat :=
  let buffer := wb.2 ++ emit_record t r
  if threshold ≤ buffer.length then (wb.1 ++ buffer, []) else (wb.1, buffer)

/-- Collector state: next expected record index, the pending `BTreeMap`
(modelled as an association list sorted by key), the bytes already
written, and the current `output_buffer`. -/
structure CollectorState where
  next_index : Nat
  pending : List (Nat × List OutputRecord)
  written : List Nat
  buffer : List Nat
deriving DecidableEq

/-- `BTreeMap::insert`: sorted insertion, replacing an equal key. -/
def pendingInsert (k : Nat) (v : List OutputRecord) :
    List (Nat × List OutputRecord) → List (Nat × List OutputRecord)
  | [] => [(k, v)]
  | (k', v') :: rest =>
    if k < k' then (k, v) :: (k', v') :: rest
    else if k = k' then (k, v) :: rest
    else (k', v') :: pendingInsert k v rest

/-- `BTreeMap::remove` by key on the sorted association list. -/
def pendingRemove (k : Nat) :
    List (Nat × List OutputRecord) → List (Nat × List OutputRecord)
  | [] => []
  | (k', v') :: rest =>
    if k = k' then rest else (k', v') :: pendingRemove k rest

/-- `BTreeMap` key lookup on the sorted association list. -/
def pendingLookup (k : Nat) :
    List (Nat × List OutputRecord) → Option (List OutputRecord)
  | [] => none
  | (k', v') :: rest => if k = k' then some v' else pendingLookup k rest

/-- The greedy flush loop of `get_results` (lines 72–98): while the
minimal pending key (the head of the sorted list) equals `next_index`,
remove that chunk and append its records to the output buffer, flushing
on the way; stop at the first gap. -/
def flush_run (threshold : Nat) (t : Option Nat) :
    List (Nat × List OutputRecord) → Nat → List Nat × List Nat →
    CollectorState
  | [], next, wb => ⟨next, [], wb.1, wb.2⟩
  | (k, outs) :: rest, next, wb =>
    if k = next then
      flush_run threshold t rest (next + outs.length)
        (outs.foldl (push_pair threshold t) wb)
    else
      ⟨next, (k, outs) :: rest, wb.1, wb.2⟩

/-- The receive loop of `get_results`: an `Err` chunk aborts the run with
a 1-based positional message; an `Ok` chunk is buffered and the
contiguous run starting at `next_index` is flushed. -/
def collect (threshold : Nat) (t : Option Nat) (mode : InputMode) :
    List ResultChunk → CollectorState → Except String CollectorState
  | [], st => .ok st
  | ResultChunk.err index error :: _, _ =>
    let shown := index + 1
    (match mode with
     | InputMode.WholeString => .error error
     | InputMode.PerLine => .error s!"line {shown}: {error}"
     | InputMode.ZeroTerminated => .error s!"record {shown}: {error}")
  | ResultChunk.ok start_index outputs :: rest, st =>
    collect threshold t mode rest
      (flush_run threshold t (pendingInsert start_index outputs st.pending)
        st.next_index (st.written, st.buffer))

/-- The post-close drain loop of `get_results` (lines 101–112): keep
removing the chunk keyed by `next_index`, appending its records to the
buffer (no threshold flush here).  Each iteration removes one pending
entry, so `fuel = pending.length` runs the loop to completion. -/
def drain_rest (t : Option Nat) : Nat → CollectorState → CollectorState
  | 0, st => st
  | fuel + 1, st =>
    match pendingLookup st.next_index st.pending with
    | none => st
    | some outs =>
      drain_rest t fuel
        ⟨st.next_index + outs.length, pendingRemove st.next_index st.pending,
         st.written, st.buffer ++ catMap (emit_record t) outs⟩

/-- `get_results` from `src/output/mod.rs`, as a function from the
arrival-ordered list of result chunks to the byte stream handed to the
writer (or the run-aborting error).  `threshold` is the
`SPLITBY_OUTPUT_FLUSH` value (default 65536). -/
def get_results (threshold : Nat) (oi : OutputInstructions)
    (chunks : List ResultChunk) : Except String (List Nat) :=
  let t := record_terminator oi.input_mode
  match collect threshold t oi.input_mode chunks ⟨0, [], [], []⟩ with
  | .error e => .error e
  | .ok st =>
    let st := drain_rest t st.pending.length st
    if st.pending ≠ [] then
      let first_missing := st.next_index
      .error s!"result stream ended early: missing record {first_missing}"
    else
      let st :=
        if st.next_index = 0 ∧ oi.count then
          { st with written := st.written ++ [48] }
        else st
      if st.next_index = 0 ∧ oi.strict_return then
        .error "strict return check failed: no input received"
      else if st.next_index = 0 ∧ oi.strict_bounds ∧ oi.selections ≠ [] then
        .error "index out of bounds, must be between 1 and 0"
      else
        let buffer :=
          if oi.input_mode = InputMode.WholeString ∧ st.buffer ≠ [] ∧
              st.buffer.getLast? ≠ some 10 then
            st.buffer ++ [10]
          else st.buffer
        .ok (st.written ++ buffer)

/-! ## Specification-side descriptions of the collector's output -/

/-- The `(written, output_buffer)` pair after pushing `recs` in index
order through the flush discipline, starting from an empty writer. -/
def run_output (threshold : Nat) (t : Option Nat) (recs : List OutputRecord) :
    List Nat × List Nat :=
  recs.foldl (push_pair threshold t) ([], [])

/-- The byte stream `get_results` produces for a complete run: the
records' bytes in ascending record order through the flush discipline,
with the whole-string trailing-newline fixup applied to the final
buffer. -/
def final_stream (threshold : Nat) (mode : InputMode)
    (recs : List OutputRecord) : List Nat :=
  let t := record_terminator mode
  let wb := run_output threshold t recs
  let buffer :=
    if mode = InputMode.WholeString ∧ wb.2 ≠ [] ∧ wb.2.getLast? ≠ some 10 then
      wb.2 ++ [10]
    else wb.2
  wb.1 ++ buffer

/-- Cutting the ordered records `recs` into consecutive chunks of the
given sizes, each `Ok` chunk tagged with the index of its first record:
the shape of a complete, gap-free set of result chunks starting at
`start`. -/
def chunksOf (start : Nat) : List OutputRecord → List Nat → List ResultChunk
  | _, [] => []
  | recs, n :: ns =>
    ResultChunk.ok start (recs.take n) :: chunksOf (start + n) (recs.drop n) ns

/-! ## Concrete configurations used by the claim theorems -/

/-- Byte-mode lenient configuration of spec example 3: selections
`1,10,3`, placeholder `0x00`. -/
def exampleByteInstructions : TransformInstructions :=
  ⟨InputMode.PerLine, [(1, 1), (10, 10), (3, 3)], false, false, some [0],
   false, false, false, false, false, none⟩

/-- Output-stage configuration of spec example 3 (per-line mode). -/
def exampleOutputInstructions : OutputInstructions :=
  ⟨false, false, false, InputMode.PerLine, [(1, 1), (10, 10), (3, 3)]⟩

/-- Fields-mode configuration with an empty selection list and `invert`
set. -/
def emptyInvertInstructions : TransformInstructions :=
  ⟨InputMode.PerLine, [], true, false, none, false, false, false, false,
   false, none⟩

/-- Fields-mode configuration with `strict_return` set, placeholder `X`
and the single out-of-bounds selection `10`. -/
def strictReturnPlaceholderInstructions : TransformInstructions :=
  ⟨InputMode.PerLine, [(10, 10)], false, false, some [88], true, false,
   false, false, false, none⟩

/-- Fields-mode auto-join configuration: no selections, no join, no
placeholder, nothing strict (per-line input). -/
def plainFieldsInstructions : TransformInstructions :=
  ⟨InputMode.PerLine, [], false, false, none, false, false, false, false,
   false, none⟩

/-- The same configuration in whole-string input mode. -/
def plainFieldsWholeString : TransformInstructions :=
  ⟨InputMode.WholeString, [], false, false, none, false, false, false, false,
   false, none⟩

/-! ## C8: spec example 3, byte mode with placeholder -/

/-- C8: in byte selection mode with per-line input, lenient bounds,
placeholder `0x00` and selections `1,10,3`, the record `"hello"` (with
terminator) is transformed to the bytes `0x68 0x00 0x6c`, and the
collector emits them followed by the re-appended terminator `0x0a`:
in-bounds indices copy the byte, index 10 contributes the placeholder. -/
theorem C8_example3_hello :
    process_bytes exampleByteInstructions
      ⟨0, [104, 101, 108, 108, 111], true, none⟩ = .ok [104, 0, 108] ∧
    get_results 65536 exampleOutputInstructions
      [ResultChunk.ok 0 [⟨[104, 0, 108], true⟩]] = .ok [104, 0, 108, 10] := by
  exact ⟨rfl, rfl⟩

/-! ## C5: alignment widths (code bug: the composer pads by byte length) -/

/-- C5 (code bug exhibit): the aligned composer of
`src/transform/process_fields.rs` measures the current field by its raw
byte length, not its display width.  For the records `"é,x"` (`é` is the
two UTF-8 bytes `0xC3 0xA9`, display width 1) and `"ab,y"` under maximum
column width 2 (their common display-width maximum computed by the width
scanner), the first record receives no padding (`2 - 2 = 0` bytes) even
though display-width alignment requires one space, so the two outputs
are not column-aligned. -/
theorem C5_padding_uses_byte_length :
    process_fields plainFieldsInstructions
      ⟨0, [195, 169, 44, 120], true, some [2]⟩ [(2, 3)] =
        .ok [195, 169, 44, 120] ∧
    process_fields plainFieldsInstructions
      ⟨1, [97, 98, 44, 121], true, some [2]⟩ [(2, 3)] =
        .ok [97, 98, 44, 121] ∧
    [195, 169, 44, 120] ≠ [195, 169, 44, 32, 120] := by
  exact ⟨rfl, rfl, by decide⟩

/-! ## C3: empty selection list and invert -/

/-- C3 counterexample: with an empty selection list and `invert` set, the
Composer does not produce empty output; it selects the whole unit
sequence.  For the record `"a b"` split on the space, the output is the
whole record `"a b"`, and likewise byte mode returns all bytes of
`"abc"`. -/
theorem C3_empty_invert_counterexample :
    process_fields emptyInvertInstructions ⟨0, [97, 32, 98], true, none⟩
      [(1, 2)] = .ok [97, 32, 98] ∧
    process_bytes emptyInvertInstructions ⟨0, [97, 98, 99], true, none⟩ =
      .ok [97, 98, 99] ∧
    ([97, 32, 98] : List Nat) ≠ [] := by
  exact ⟨rfl, rfl, by decide⟩

/-- Emitting the indices `s, …, s+n-1` of the byte loop copies the
corresponding slice of the record when the whole range is in bounds. -/
lemma catMap_byteRange (l phb : List Nat) :
    ∀ (n s : Nat), s + n ≤ l.length →
      catMap (fun i => if i < l.length then [l.getD i 0] else phb)
        (rangeList s n) = (l.drop s).take n := by
  intro n
  induction n with
  | zero => intro s _; simp [rangeList, catMap]
  | succ n ih =>
    intro s hs
    have hsl : s < l.length := by omega
    rw [rangeList, catMap, if_pos hsl, ih (s + 1) (by omega),
      List.drop_eq_getElem_cons hsl, List.take_succ_cons,
      List.getD_eq_getElem l 0 hsl]
    rfl

/-- C3 amended: with an empty configured selection list, `process_bytes`
selects the whole unit sequence whether or not `invert` is set — the
output is the record's bytes unchanged (for a non-empty record outside
count mode), never the empty output the claim predicts for the inverted
case. -/
theorem C3_empty_selections_whole_sequence
    (ti : TransformInstructions) (record : Record)
    (hsel : ti.selections = []) (hcount : ti.count = false)
    (hne : record.bytes ≠ []) :
    process_bytes ti record = .ok record.bytes := by
  have hlen : record.bytes.length ≠ 0 := by
    simpa [List.length_eq_zero] using hne
  have hnorm : normalise_selections ti.selections record.bytes.length
      ti.placeholder.isSome ti.strict_bounds ti.strict_range_order = .ok [] := by
    rw [hsel]; rfl
  have hone : record.bytes.length - 1 + 1 - 0 = record.bytes.length := by omega
  have hout : catMap (fun (p : Nat × Nat) =>
      catMap (fun i => if i < record.bytes.length then [record.bytes.getD i 0]
        else match ti.placeholder with
          | some placeholder => placeholder
          | none => [])
        (rangeList p.1 (p.2 + 1 - p.1)))
      [(0, record.bytes.length - 1)] = record.bytes := by
    show catMap _ (rangeList 0 (record.bytes.length - 1 + 1 - 0)) ++
      catMap _ [] = record.bytes
    rw [hone, catMap, catMap_byteRange _ _ record.bytes.length 0 (by omega)]
    simp
  unfold process_bytes
  rw [hcount, hsel]
  simp only [List.getD_eq_getElem?_getD] at hout
  simp [normalise_selections, hlen, hne, hout]

/-! ## C2: `normalise_selection` in lenient mode -/

/-- The value `resolve_index` computes when it does not overflow:
`raw-1` for positive `raw`, `len + raw` otherwise. -/
def resolvedIndex (raw : Int) (len : Nat) : Int :=
  if raw > 0 then raw - 1 else (len : Int) + raw

lemma wrap32_small {n : Nat} (h : n ≤ 2147483647) : wrap32 n = (n : Int) := by
  have : (n : Int) ≤ 2147483647 := by exact_mod_cast h
  simp only [wrap32]
  omega

lemma resolve_index_small {raw : Int} {len : Nat} (h : len ≤ MAX_SAFE_LEN) :
    resolve_index raw len = .ok (resolvedIndex raw len) := by
  unfold resolve_index resolvedIndex
  split
  · rfl
  · rw [if_neg (by omega)]

/-- C2 counterexample: the claim fails on the code in three ways.
With `allow_placeholder` true, the lenient resolved end is **not**
clamped to `[0, len-1]`: selection `1-10` on 5 units yields the range
`(0, 9)`, which also escapes `[0, 5)`.  With `len = 2^31` the `as i32`
cast wraps and the in-bounds selection `5` is dropped instead of kept.
With `len = 0` the lenient non-placeholder path returns `(0, 0)`, which
is not inside `[0, 0)`. -/
theorem C2_lenient_counterexample :
    normalise_selection 1 10 5 true false false = .ok (some (0, 9)) ∧
    normalise_selection 5 5 2147483648 false false false = .ok none ∧
    normalise_selection (-1) 1 0 false false false = .ok (some (0, 0)) := by
  exact ⟨rfl, rfl, rfl⟩

/-- C2 amended: for `1 ≤ len ≤ i32::MAX` and lenient flags
(`strict_bounds` and `strict_range_order` false), `normalise_selection`
never errors; writing `rs`/`re` for the resolved endpoints, a resolved
`end < 0` or reversed range is dropped; with `allow_placeholder` false a
resolved `start ≥ len` is dropped and an accepted range is
lower-clamped to 0 and upper-clamped to `len-1`, hence lies in
`[0, len)`; with `allow_placeholder` true both endpoints are clamped
below at 0 only — the end is **not** clamped to `len-1`. -/
theorem C2_normalise_selection_lenient (raw_start raw_end : Int)
    (length : Nat) (ph : Bool) (h1 : 1 ≤ length) (h2 : length ≤ MAX_SAFE_LEN) :
    (∃ o, normalise_selection raw_start raw_end length ph false false = .ok o) ∧
    (resolvedIndex raw_end length < 0 ∨
        resolvedIndex raw_start length > resolvedIndex raw_end length →
      normalise_selection raw_start raw_end length ph false false = .ok none) ∧
    (resolvedIndex raw_start length ≤ resolvedIndex raw_end length →
      0 ≤ resolvedIndex raw_end length →
      (ph = false →
        ((length : Int) ≤ resolvedIndex raw_start length →
          normalise_selection raw_start raw_end length ph false false =
            .ok none) ∧
        (resolvedIndex raw_start length < (length : Int) →
          normalise_selection raw_start raw_end length ph false false =
            .ok (some ((max (resolvedIndex raw_start length) 0).toNat,
              (min (resolvedIndex raw_end length)
                ((length : Int) - 1)).toNat)))) ∧
      (ph = true →
        normalise_selection raw_start raw_end length ph false false =
          .ok (some ((max (resolvedIndex raw_start length) 0).toNat,
            (resolvedIndex raw_end length).toNat)))) ∧
    (ph = false → ∀ a b,
      normalise_selection raw_start raw_end length ph false false =
        .ok (some (a, b)) →
      a ≤ b ∧ b < length) := by
  have h2' : length ≤ 2147483647 := by unfold MAX_SAFE_LEN at h2; exact h2
  have hw : wrap32 length = (length : Int) := wrap32_small h2'
  have hw1 : wrap32 (length - 1) = (length : Int) - 1 := by
    rw [wrap32_small (show length - 1 ≤ 2147483647 by omega)]
    omega
  have hr1 : resolve_index raw_start length =
      .ok (resolvedIndex raw_start length) := resolve_index_small h2
  have hr2 : resolve_index raw_end length =
      .ok (resolvedIndex raw_end length) := resolve_index_small h2
  unfold normalise_selection
  rw [hr1, hr2, hw, hw1]
  set rs := resolvedIndex raw_start length with hrs
  set re := resolvedIndex raw_end length with hre2
  simp only [Bool.false_eq_true, false_and, if_false]
  refine ⟨?_, ?_, ?_, ?_⟩
  · split_ifs <;> exact ⟨_, rfl⟩
  · intro h
    split_ifs with h1' h2' h3' h4' <;> first
      | rfl
      | omega
  · intro hle hpos
    rw [if_neg (by omega), if_neg (by omega)]
    refine ⟨?_, ?_⟩
    · intro hphf
      subst hphf
      simp only [Bool.false_eq_true, if_false]
      constructor
      · intro hbig
        rw [if_pos (by omega)]
      · intro hsmall
        rw [if_neg (by omega)]
        rw [show min (max rs 0) ((length : Int) - 1) = max rs 0 by omega,
          show min (max re 0) ((length : Int) - 1) = min re ((length : Int) - 1)
            by omega]
    · intro hpht
      subst hpht
      rw [if_pos rfl, show max re 0 = re by omega]
  · intro hphf a b
    subst hphf
    simp only [Bool.false_eq_true, if_false]
    split_ifs with c1 c2 c3
    · intro h; simp at h
    · intro h; simp at h
    · intro h; simp at h
    · intro h
      injection h with h
      injection h with h
      injection h with ha hb
      omega

/-- C2 witness: the amended theorem at `raw = 2-4`, `len = 10`,
placeholder off: the selection resolves to `(1, 3)`. -/
theorem C2_normalise_selection_lenient_witness :
    normalise_selection 2 4 10 false false false = .ok (some (1, 3)) := by
  have h := (C2_normalise_selection_lenient 2 4 10 false (by decide)
    (by decide)).2.2.1
  have h2 := (h (by decide) (by decide)).1 rfl
  have h3 := h2.2 (by decide)
  simpa using h3

/-! ## C4: strict_return and placeholders -/

/-- C4 counterexample: under `strict_return`, an output consisting solely
of placeholder bytes does **not** fail.  Record `"hello"` (one field, no
delimiter matches) with the single out-of-bounds selection `10` and
placeholder `"X"` composes to the placeholder byte alone and succeeds. -/
theorem C4_placeholder_only_succeeds :
    process_fields strictReturnPlaceholderInstructions
      ⟨0, [104, 101, 108, 108, 111], true, none⟩ [] = .ok [88] := by
  rfl

/-! ## C7: split / auto re-join round trip -/

/-- C7 counterexample: the round trip is not the identity on every
field-mode record.  In whole-string mode the trailing empty field of
`"a,"` (delimiter span `(1,2)`) is discarded, so the output is `"a"`;
and with an empty delimiter match (span `(1,1)` inside `"ab"`) the
auto-join falls back to a space, producing `"a b"`. -/
theorem C7_round_trip_counterexample :
    process_fields plainFieldsWholeString ⟨0, [97, 44], false, none⟩
      [(1, 2)] = .ok [97] ∧
    process_fields plainFieldsInstructions ⟨0, [97, 98], true, none⟩
      [(1, 1)] = .ok [97, 32, 98] ∧
    ([97] : List Nat) ≠ [97, 44] ∧ ([97, 32, 98] : List Nat) ≠ [97, 98] := by
  exact ⟨rfl, rfl, by decide, by decide⟩

/-! ## C9: the worker's per-batch protocol -/

/-- The bytes a record's processing yields when it succeeds (defaulting
to `[]`, only used under a success hypothesis). -/
def outcomeBytes (proc : Record → Except String (List Nat)) (sr : Bool)
    (r : Record) : List Nat :=
  match recordOutcome proc sr r with
  | .ok b => b
  | .error _ => []

lemma runBatch_ok (proc : Record → Except String (List Nat)) (sr : Bool) :
    ∀ (l : List Record),
      (∀ x ∈ l, ∃ b, recordOutcome proc sr x = .ok b) →
      runBatch proc sr l =
        .ok (l.map fun x => ⟨outcomeBytes proc sr x, x.has_terminator⟩) := by
  intro l
  induction l with
  | nil => intro _; rfl
  | cons r l ih =>
    intro h
    obtain ⟨b, hb⟩ := h r (by simp)
    have hbytes : outcomeBytes proc sr r = b := by
      unfold outcomeBytes; rw [hb]
    rw [List.map_cons, runBatch, hb, ih (fun x hx => h x (by simp [hx])),
      hbytes]

lemma runBatch_err (proc : Record → Except String (List Nat)) (sr : Bool)
    (x : Record) (suf : List Record) (e : String)
    (hx : recordOutcome proc sr x = .error e) :
    ∀ (pre : List Record),
      (∀ y ∈ pre, ∃ b, recordOutcome proc sr y = .ok b) →
      runBatch proc sr (pre ++ x :: suf) = .error (x.index, e) := by
  intro pre
  induction pre with
  | nil => intro _; rw [List.nil_append, runBatch, hx]
  | cons y pre ih =>
    intro h
    obtain ⟨b, hb⟩ := h y (by simp)
    rw [List.cons_append, runBatch, hb, ih (fun z hz => h z (by simp [hz]))]

/-- C9: for every non-empty batch, if every record in it succeeds (the
per-record processing returns `Ok` and passes the worker's
`strict_return` emptiness check), the worker sends exactly one `Ok`
chunk, tagged with the batch's first record's index, containing one
`OutputRecord` per record in batch order (so `outputs.len()` equals the
batch length, the number of records processed), and then continues with
the remaining batches; on the first per-record failure it sends exactly
one `Err` chunk tagged with the failing record's index and terminates —
nothing else is sent and no later batch is processed. -/
theorem C9_worker_batch_protocol (proc : Record → Except String (List Nat))
    (sr : Bool) (record : Record) (rest : List Record)
    (batches : List (List Record)) :
    ((∀ x ∈ record :: rest, ∃ b, recordOutcome proc sr x = .ok b) →
      process_records proc sr ((record :: rest) :: batches) =
        ResultChunk.ok record.index
          ((record :: rest).map fun x =>
            ⟨outcomeBytes proc sr x, x.has_terminator⟩) ::
          process_records proc sr batches ∧
      ((record :: rest).map fun x =>
        (⟨outcomeBytes proc sr x, x.has_terminator⟩ : OutputRecord)).length =
        (record :: rest).length) ∧
    (∀ (pre : List Record) (x : Record) (suf : List Record) (e : String),
      record :: rest = pre ++ x :: suf →
      (∀ y ∈ pre, ∃ b, recordOutcome proc sr y = .ok b) →
      recordOutcome proc sr x = .error e →
      process_records proc sr ((record :: rest) :: batches) =
        [ResultChunk.err x.index e]) := by
  constructor
  · intro h
    refine ⟨?_, List.length_map _ _⟩
    rw [process_records, runBatch_ok proc sr _ h]
  · intro pre x suf e hsplit hpre hx
    rw [process_records, hsplit, runBatch_err proc sr x suf e hx pre hpre]

/-- Byte-mode configuration with `strict_return` set and no selections,
used to instantiate the worker theorem. -/
def strictReturnByteInstructions : TransformInstructions :=
  ⟨InputMode.PerLine, [], false, false, none, true, false, false, false,
   false, none⟩

/-- C9 witness: a concrete two-record batch that fully succeeds (via
`process_bytes`), followed by a batch whose second record fails the
worker's strict-return check, exercising both halves of the theorem. -/
theorem C9_worker_batch_protocol_witness :
    process_records
      (process_bytes strictReturnByteInstructions) true
      ([⟨0, [97], true, none⟩, ⟨1, [98], true, none⟩] ::
        [⟨2, [99], true, none⟩, ⟨3, [], true, none⟩] :: []) =
      [ResultChunk.ok 0 [⟨[97], true⟩, ⟨[98], true⟩],
       ResultChunk.err 3 "strict returns error: empty record"] := by
  have h1 := (C9_worker_batch_protocol
    (process_bytes strictReturnByteInstructions) true
    ⟨0, [97], true, none⟩ [⟨1, [98], true, none⟩]
    ([⟨2, [99], true, none⟩, ⟨3, [], true, none⟩] :: [])).1
    (by
      intro x hx
      fin_cases hx
      · exact ⟨[97], rfl⟩
      · exact ⟨[98], rfl⟩)
  have h2 := (C9_worker_batch_protocol
    (process_bytes strictReturnByteInstructions) true
    ⟨2, [99], true, none⟩ [⟨3, [], true, none⟩] []).2
    [⟨2, [99], true, none⟩] ⟨3, [], true, none⟩ []
    "strict returns error: empty record" rfl
    (by
      intro y hy
      fin_cases hy
      exact ⟨[99], rfl⟩)
    rfl
  rw [h1.1, h2]
  rfl

/-! ## C6/C10: coverage lemmas for `invert_selections` -/

/-- Well-formed ranges: each is ordered and ends below `len`. -/
def RangesWF (rs : List (Nat × Nat)) (len : Nat) : Prop :=
  ∀ p ∈ rs, p.1 ≤ p.2 ∧ p.2 < len

lemma covers_nil (i : Nat) : ¬ Covers [] i := by
  simp [Covers]

lemma covers_cons {p : Nat × Nat} {l : List (Nat × Nat)} {i : Nat} :
    Covers (p :: l) i ↔ (p.1 ≤ i ∧ i ≤ p.2) ∨ Covers l i := by
  simp [Covers]

lemma covers_append {l1 l2 : List (Nat × Nat)} {i : Nat} :
    Covers (l1 ++ l2) i ↔ Covers l1 i ∨ Covers l2 i := by
  simp [Covers, or_and_right, exists_or]

lemma covers_perm {l l' : List (Nat × Nat)} (h : l.Perm l') (i : Nat) :
    Covers l i ↔ Covers l' i := by
  simp only [Covers]
  constructor <;> rintro ⟨p, hp, hi⟩
  · exact ⟨p, h.mem_iff.mp hp, hi⟩
  · exact ⟨p, h.mem_iff.mpr hp, hi⟩

lemma rangesWF_perm {l l' : List (Nat × Nat)} {len : Nat} (h : l.Perm l')
    (hwf : RangesWF l len) : RangesWF l' len :=
  fun p hp => hwf p (h.mem_iff.mpr hp)

instance : IsTotal (Nat × Nat) selLE :=
  ⟨by intro a b; unfold selLE; omega⟩

instance : IsTrans (Nat × Nat) selLE :=
  ⟨by intro a b c; unfold selLE; omega⟩

lemma sortSelections_perm (rs : List (Nat × Nat)) :
    (sortSelections rs).Perm rs :=
  List.perm_insertionSort selLE rs

lemma sortSelections_sorted (rs : List (Nat × Nat)) :
    (sortSelections rs).Pairwise (fun a b => a.1 ≤ b.1) := by
  have h := List.sorted_insertionSort selLE rs
  exact h.imp (fun hab => by unfold selLE at hab; omega)

/-- The merge loop: coverage is preserved, the output is well formed,
its ranges are separated (`a.2 < b.1` consecutively) and all its starts
are at least `cur.1`. -/
lemma mergeLoop_spec (len : Nat) :
    ∀ (rest : List (Nat × Nat)) (cur : Nat × Nat),
      cur.1 ≤ cur.2 → cur.2 < len → RangesWF rest len →
      (∀ p ∈ rest, cur.1 ≤ p.1) →
      rest.Pairwise (fun a b => a.1 ≤ b.1) →
      (∀ i, Covers (mergeLoop cur rest) i ↔
        (cur.1 ≤ i ∧ i ≤ cur.2) ∨ Covers rest i) ∧
      RangesWF (mergeLoop cur rest) len ∧
      (mergeLoop cur rest).Chain' (fun a b => a.2 < b.1) ∧
      (∀ p ∈ mergeLoop cur rest, cur.1 ≤ p.1) := by
  intro rest
  induction rest with
  | nil =>
    intro cur h1 h2 _ _ _
    refine ⟨fun i => ?_, ?_, ?_, ?_⟩
    · rw [mergeLoop]; exact covers_cons
    · intro p hp
      rw [mergeLoop] at hp
      simp only [List.mem_singleton] at hp
      subst hp; exact ⟨h1, h2⟩
    · rw [mergeLoop]; simp
    · intro p hp
      rw [mergeLoop] at hp
      simp only [List.mem_singleton] at hp
      subst hp; exact le_refl _
  | cons hd rest ih =>
    intro cur h1 h2 hwf hstarts hpw
    obtain ⟨s, e⟩ := hd
    have hse : s ≤ e ∧ e < len := hwf (s, e) (by simp)
    have hcs : cur.1 ≤ s := hstarts (s, e) (by simp)
    rw [mergeLoop]
    by_cases hm : s ≤ cur.2
    · rw [if_pos hm]
      have ihr := ih (cur.1, max cur.2 e)
        (show cur.1 ≤ max cur.2 e by omega)
        (show max cur.2 e < len by omega)
        (fun p hp => hwf p (by simp [hp]))
        (fun p hp => hstarts p (by simp [hp]))
        (hpw.of_cons)
      refine ⟨fun i => ?_, ihr.2.1, ihr.2.2.1, ihr.2.2.2⟩
      rw [(ihr.1 i), covers_cons]
      simp only
      constructor
      · rintro (h | h)
        · by_cases hc : i ≤ cur.2
          · exact Or.inl ⟨h.1, hc⟩
          · exact Or.inr (Or.inl ⟨by omega, by omega⟩)
        · exact Or.inr (Or.inr h)
      · rintro (h | h | h)
        · exact Or.inl ⟨h.1, by omega⟩
        · exact Or.inl ⟨by omega, by omega⟩
        · exact Or.inr h
    · rw [if_neg hm]
      have hpw' : ∀ p ∈ rest, s ≤ p.1 := by
        intro p hp
        exact (List.rel_of_pairwise_cons hpw hp)
      have ihr := ih (s, e) hse.1 hse.2
        (fun p hp => hwf p (by simp [hp])) hpw' hpw.of_cons
      refine ⟨fun i => ?_, ?_, ?_, ?_⟩
      · rw [covers_cons, (show Covers ((s, e) :: rest) i ↔ _ from covers_cons),
          (ihr.1 i)]
      · intro p hp
        rcases List.mem_cons.mp hp with h | h
        · subst h; exact ⟨h1, h2⟩
        · exact ihr.2.1 p h
      · rw [List.chain'_cons']
        refine ⟨?_, ihr.2.2.1⟩
        intro b hb
        have hbm : b ∈ mergeLoop (s, e) rest := List.mem_of_mem_head? hb
        have := ihr.2.2.2 b hbm
        simp only at this
        omega
      · intro p hp
        rcases List.mem_cons.mp hp with h | h
        · subst h; exact le_refl _
        · have := ihr.2.2.2 p h
          simp only at this
          omega

/-- `mergeRanges` on a start-sorted, well-formed list. -/
lemma mergeRanges_spec {l : List (Nat × Nat)} {len : Nat}
    (hwf : RangesWF l len) (hpw : l.Pairwise (fun a b => a.1 ≤ b.1)) :
    (∀ i, Covers (mergeRanges l) i ↔ Covers l i) ∧
    RangesWF (mergeRanges l) len ∧
    (mergeRanges l).Chain' (fun a b => a.2 < b.1) := by
  cases l with
  | nil =>
    have h0 : mergeRanges ([] : List (Nat × Nat)) = [] := rfl
    rw [h0]
    refine ⟨fun i => Iff.rfl, ?_, ?_⟩
    · intro p hp; cases hp
    · trivial
  | cons hd rest =>
    have hh := hwf hd (by simp)
    have hml := mergeLoop_spec len rest hd hh.1 hh.2
      (fun p hp => hwf p (by simp [hp]))
      (fun p hp => List.rel_of_pairwise_cons hpw hp)
      hpw.of_cons
    have h0 : mergeRanges (hd :: rest) = mergeLoop hd rest := rfl
    rw [h0]
    refine ⟨fun i => ?_, hml.2.1, hml.2.2.1⟩
    rw [hml.1 i, covers_cons]

/-- In a separated well-formed chain, every later range starts after the
first range's end. -/
lemma chainSep_all {len : Nat} :
    ∀ (l : List (Nat × Nat)) (x : Nat × Nat),
      (x :: l).Chain' (fun a b => a.2 < b.1) → RangesWF (x :: l) len →
      ∀ q ∈ l, x.2 < q.1 := by
  intro l
  induction l with
  | nil => intro x _ _ q hq; cases hq
  | cons y l ih =>
    intro x hch hwf q hq
    have hxy : x.2 < y.1 := List.chain'_cons.mp hch |>.1
    rcases List.mem_cons.mp hq with h | h
    · subst h; exact hxy
    · have hy := hwf y (by simp)
      have := ih y (List.chain'_cons.mp hch).2
        (fun p hp => hwf p (by simp [List.mem_cons.mp hp])) q h
      omega

/-- `invertLoop` computes exactly the complement of a separated,
well-formed chain within `[pointer, length)`. -/
lemma invertLoop_covers {len : Nat} :
    ∀ (m : List (Nat × Nat)) (p : Nat),
      m.Chain' (fun a b => a.2 < b.1) → RangesWF m len →
      (∀ q ∈ m, p ≤ q.1) →
      ∀ i, Covers (invertLoop p len m) i ↔
        (p ≤ i ∧ i < len ∧ ¬ Covers m i) := by
  intro m
  induction m with
  | nil =>
    intro p _ _ _ i
    rw [invertLoop]
    by_cases hp : p < len
    · rw [if_pos hp, covers_cons]
      simp only [covers_nil, or_false]
      constructor
      · rintro ⟨h1, h2⟩; exact ⟨h1, by omega, not_false⟩
      · rintro ⟨h1, h2, _⟩; exact ⟨h1, by omega⟩
    · rw [if_neg hp]
      simp only [covers_nil, false_iff]
      rintro ⟨h1, h2, _⟩; omega
  | cons hd rest ih =>
    intro p hch hwf hstarts i
    obtain ⟨s, e⟩ := hd
    have hse : s ≤ e ∧ e < len := hwf (s, e) (by simp)
    have hps : p ≤ s := hstarts (s, e) (by simp)
    have hrest_starts : ∀ q ∈ rest, e < q.1 :=
      @chainSep_all len rest (s, e) hch hwf
    have hrest_low : ∀ j, j ≤ e → ¬ Covers rest j := by
      intro j hj hc
      obtain ⟨q, hq, hq1, hq2⟩ := hc
      have := hrest_starts q hq
      omega
    have ihr := ih (e + 1) hch.tail
      (fun q hq => hwf q (by simp [hq]))
      (fun q hq => by have := hrest_starts q hq; omega)
    rw [invertLoop, covers_append, ihr i, covers_cons]
    constructor
    · rintro (h | ⟨h1, h2, h3⟩)
      · by_cases hgap : s > p
        · rw [if_pos hgap] at h
          rw [covers_cons] at h
          rcases h with ⟨ha, hb⟩ | h
          · simp only at ha hb
            refine ⟨ha, by omega, ?_⟩
            rintro (⟨hc, hd⟩ | hc)
            · omega
            · exact hrest_low i (by omega) hc
          · exact absurd h (covers_nil i)
        · rw [if_neg hgap] at h
          exact absurd h (covers_nil i)
      · refine ⟨by omega, h2, ?_⟩
        rintro (⟨hc, hd⟩ | hc)
        · omega
        · exact h3 hc
    · rintro ⟨h1, h2, h3⟩
      by_cases hlow : i < s
      · left
        rw [if_pos (by omega)]
        rw [covers_cons]
        exact Or.inl ⟨h1, by omega⟩
      · by_cases hmid : i ≤ e
        · exact absurd (Or.inl ⟨by omega, hmid⟩) h3
        · right
          refine ⟨by omega, h2, ?_⟩
          intro hc
          exact h3 (Or.inr hc)

/-- Structure of `invertLoop`'s output: well-formed, strictly separated
non-adjacent ranges, all starting at or after the pointer. -/
lemma invertLoop_struct {len : Nat} :
    ∀ (m : List (Nat × Nat)) (p : Nat),
      m.Chain' (fun a b => a.2 < b.1) → RangesWF m len →
      (∀ q ∈ m, p ≤ q.1) →
      RangesWF (invertLoop p len m) len ∧
      (invertLoop p len m).Chain' (fun a b => a.2 + 1 < b.1) ∧
      (∀ q ∈ invertLoop p len m, p ≤ q.1) := by
  intro m
  induction m with
  | nil =>
    intro p _ _ _
    rw [invertLoop]
    by_cases hp : p < len
    · rw [if_pos hp]
      refine ⟨?_, ?_, ?_⟩
      · intro q hq
        simp only [List.mem_singleton] at hq
        subst hq
        exact ⟨by omega, by omega⟩
      · simp
      · intro q hq
        simp only [List.mem_singleton] at hq
        subst hq
        exact le_refl _
    · rw [if_neg hp]
      refine ⟨?_, ?_, ?_⟩
      · intro q hq; cases hq
      · trivial
      · intro q hq; cases hq
  | cons hd rest ih =>
    intro p hch hwf hstarts
    obtain ⟨s, e⟩ := hd
    have hse : s ≤ e ∧ e < len := hwf (s, e) (by simp)
    have hps : p ≤ s := hstarts (s, e) (by simp)
    have hrest_starts : ∀ q ∈ rest, e < q.1 :=
      @chainSep_all len rest (s, e) hch hwf
    have ihr := ih (e + 1) hch.tail
      (fun q hq => hwf q (by simp [hq]))
      (fun q hq => by have := hrest_starts q hq; omega)
    rw [invertLoop]
    refine ⟨?_, ?_, ?_⟩
    · intro q hq
      rcases List.mem_append.mp hq with h | h
      · by_cases hgap : s > p
        · rw [if_pos hgap] at h
          simp only [List.mem_singleton] at h
          subst h
          exact ⟨by omega, by omega⟩
        · rw [if_neg hgap] at h; cases h
      · exact ihr.1 q h
    · by_cases hgap : s > p
      · rw [if_pos hgap, List.singleton_append, List.chain'_cons']
        refine ⟨?_, ihr.2.1⟩
        intro b hb
        have hbm := List.mem_of_mem_head? hb
        have := ihr.2.2 b hbm
        simp only
        omega
      · rw [if_neg hgap, List.nil_append]
        exact ihr.2.1
    · intro q hq
      rcases List.mem_append.mp hq with h | h
      · by_cases hgap : s > p
        · rw [if_pos hgap] at h
          simp only [List.mem_singleton] at h
          subst h
          exact le_refl _
        · rw [if_neg hgap] at h; cases h
      · have := ihr.2.2 q h
        omega

/-- `invert_selections` computes exactly the complement of the merged
input coverage within `[0, len)`, for well-formed input ranges. -/
lemma invert_selections_complement {rs : List (Nat × Nat)} {len : Nat}
    (hwf : RangesWF rs len) :
    ∀ i, Covers (invert_selections rs len) i ↔ (i < len ∧ ¬ Covers rs i) := by
  intro i
  have hsortwf : RangesWF (sortSelections rs) len :=
    rangesWF_perm (sortSelections_perm rs).symm hwf
  have hmerge := mergeRanges_spec hsortwf (sortSelections_sorted rs)
  have hinv := @invertLoop_covers len
    (mergeRanges (sortSelections rs)) 0 hmerge.2.2 hmerge.2.1
    (fun q _ => Nat.zero_le _)
  unfold invert_selections
  rw [hinv i, hmerge.1 i, covers_perm (sortSelections_perm rs) i]
  constructor
  · rintro ⟨_, h2, h3⟩; exact ⟨h2, h3⟩
  · rintro ⟨h2, h3⟩; exact ⟨Nat.zero_le _, h2, h3⟩

/-- Structural facts about `invert_selections` for well-formed input. -/
lemma invert_selections_struct {rs : List (Nat × Nat)} {len : Nat}
    (hwf : RangesWF rs len) :
    RangesWF (invert_selections rs len) len ∧
    (invert_selections rs len).Chain' (fun a b => a.2 + 1 < b.1) := by
  have hsortwf : RangesWF (sortSelections rs) len :=
    rangesWF_perm (sortSelections_perm rs).symm hwf
  have hmerge := mergeRanges_spec hsortwf (sortSelections_sorted rs)
  have hinv := @invertLoop_struct len
    (mergeRanges (sortSelections rs)) 0 hmerge.2.2 hmerge.2.1
    (fun q _ => Nat.zero_le _)
  exact ⟨hinv.1, hinv.2.1⟩

/-- In a non-adjacently separated well-formed chain, every later range
starts strictly past the first range's end plus one. -/
lemma chainSepAdj_all {len : Nat} :
    ∀ (l : List (Nat × Nat)) (x : Nat × Nat),
      (x :: l).Chain' (fun a b => a.2 + 1 < b.1) → RangesWF (x :: l) len →
      ∀ q ∈ l, x.2 + 1 < q.1 := by
  intro l
  induction l with
  | nil => intro x _ _ q hq; cases hq
  | cons y l ih =>
    intro x hch hwf q hq
    have hxy : x.2 + 1 < y.1 := List.chain'_cons.mp hch |>.1
    rcases List.mem_cons.mp hq with h | h
    · subst h; exact hxy
    · have hy := hwf y (by simp)
      have := ih y (List.chain'_cons.mp hch).2
        (fun p hp => hwf p (by simp [List.mem_cons.mp hp])) q h
      omega

/-- A strictly separated well-formed chain is pairwise so (strictly
increasing starts, disjoint, non-adjacent). -/
lemma chainSep_pairwise {len : Nat} :
    ∀ (l : List (Nat × Nat)),
      l.Chain' (fun a b => a.2 + 1 < b.1) → RangesWF l len →
      l.Pairwise (fun a b => a.1 < b.1 ∧ a.2 + 1 < b.1) := by
  intro l
  induction l with
  | nil => intro _ _; exact List.Pairwise.nil
  | cons x l ih =>
    intro hch hwf
    refine List.Pairwise.cons ?_ (ih hch.tail (fun p hp => hwf p (by simp [hp])))
    intro q hq
    have hall := @chainSepAdj_all len l x hch hwf q hq
    have hx := hwf x (by simp)
    exact ⟨by omega, hall⟩

/-- C10 counterexample: for a reversed input range the inverted list is
not disjoint from the input coverage.  With ranges `[(2,2),(3,1)]` and
`len = 4` (all endpoints within `[0,3]`), `invert_selections` returns
`[(0,1),(2,3)]`, which covers index 2 even though the input also covers
index 2. -/
theorem C10_invert_counterexample :
    invert_selections [(2, 2), (3, 1)] 4 = [(0, 1), (2, 3)] ∧
    Covers [(2, 2), (3, 1)] 2 ∧ Covers [(0, 1), (2, 3)] 2 := by
  refine ⟨by decide, ?_, ?_⟩ <;> decide

/-- C10 amended: for input ranges that are **ordered** (`start ≤ end`)
and end below `len`, `invert_selections` returns a list that is pairwise
strictly increasing in start, disjoint and non-adjacent, whose ranges
satisfy `start ≤ end < len`, and whose coverage is exactly the
complement of the input coverage within `[0, len-1]`. -/
theorem C10_invert_selections_invariants (rs : List (Nat × Nat)) (len : Nat)
    (hwf : ∀ p ∈ rs, p.1 ≤ p.2 ∧ p.2 < len) :
    (invert_selections rs len).Pairwise
      (fun a b => a.1 < b.1 ∧ a.2 + 1 < b.1) ∧
    (∀ p ∈ invert_selections rs len, p.1 ≤ p.2 ∧ p.2 < len) ∧
    (∀ i, Covers (invert_selections rs len) i ↔
      (i < len ∧ ¬ Covers rs i)) := by
  have hs := @invert_selections_struct rs len hwf
  exact ⟨@chainSep_pairwise len _ hs.2 hs.1, hs.1,
    invert_selections_complement hwf⟩

/-- C10 witness: the invariants instantiated at ranges `[(1,2),(5,5)]`,
`len = 7`, index 3. -/
theorem C10_invert_selections_invariants_witness :
    Covers (invert_selections [(1, 2), (5, 5)] 7) 3 ↔
      (3 < 7 ∧ ¬ Covers [(1, 2), (5, 5)] 3) :=
  (C10_invert_selections_invariants [(1, 2), (5, 5)] 7 (by decide)).2.2 3

/-- C6 counterexample: with the reversed range `(4,2)` alongside `(3,3)`
(all endpoints within `[0,4]`), double inversion loses the coverage:
`invert(invert([(3,3),(4,2)], 5), 5)` is empty although the input covers
index 3. -/
theorem C6_invert_involution_counterexample :
    invert_selections (invert_selections [(3, 3), (4, 2)] 5) 5 = [] ∧
    Covers [(3, 3), (4, 2)] 3 := by
  refine ⟨by decide, ?_⟩; decide

/-- C6 amended: for input ranges that are **ordered** (`start ≤ end`)
and end below `len`, applying `invert_selections` twice restores the
original merged coverage: the double complement covers exactly the
indices the input covers. -/
theorem C6_invert_involutive_coverage (rs : List (Nat × Nat)) (len : Nat)
    (hwf : ∀ p ∈ rs, p.1 ≤ p.2 ∧ p.2 < len) :
    ∀ i, Covers (invert_selections (invert_selections rs len) len) i ↔
      Covers rs i := by
  intro i
  have hs := @invert_selections_struct rs len hwf
  have h1 := @invert_selections_complement rs len hwf i
  have h2 := @invert_selections_complement (invert_selections rs len) len hs.1 i
  have hcov : Covers rs i → i < len := by
    rintro ⟨p, hp, _, h2'⟩
    exact lt_of_le_of_lt h2' (hwf p hp).2
  rw [h2, h1]
  constructor
  · rintro ⟨hl, hn⟩
    by_cases hc : Covers rs i
    · exact hc
    · exact absurd ⟨hl, hc⟩ hn
  · intro hc
    exact ⟨hcov hc, fun h => h.2 hc⟩

/-- C6 witness: double inversion of `[(1,2),(5,5)]` within `len = 7`
covers index 2 exactly as the input does. -/
theorem C6_invert_involutive_coverage_witness :
    Covers (invert_selections (invert_selections [(1, 2), (5, 5)] 7) 7) 2 ↔
      Covers [(1, 2), (5, 5)] 2 :=
  C6_invert_involutive_coverage [(1, 2), (5, 5)] 7 (by decide) 2

/-! ## C7: the split / auto re-join identity for per-line records -/

/-- C3 witness: the empty-selection whole-sequence theorem at a concrete
inverted byte-mode record. -/
theorem C3_empty_selections_whole_sequence_witness :
    process_bytes emptyInvertInstructions ⟨0, [1, 2, 3], true, none⟩ =
      .ok [1, 2, 3] :=
  C3_empty_selections_whole_sequence emptyInvertInstructions
    ⟨0, [1, 2, 3], true, none⟩ rfl rfl (by decide)

/-- Validity of a delimiter-span list from cursor `c`: spans are ordered,
non-overlapping, non-empty and within the text. -/
def spansOK (textLen : Nat) : Nat → List (Nat × Nat) → Bool
  | _, [] => true
  | c, (s, e) :: rest =>
    decide (c ≤ s) && decide (s < e) && decide (e ≤ textLen) &&
      spansOK textLen e rest

lemma slice_append (text : List Nat) {a b c : Nat} (hab : a ≤ b)
    (hbc : b ≤ c) : slice text a b ++ slice text b c = slice text a c := by
  unfold slice
  rw [show c - a = (b - a) + (c - b) by omega, List.take_add, List.drop_drop,
    show a + (b - a) = b by omega]

lemma slice_ne_nil (text : List Nat) {s e : Nat} (hse : s < e)
    (hel : e ≤ text.length) : slice text s e ≠ [] := by
  apply List.ne_nil_of_length_pos
  rw [slice, List.length_take, List.length_drop]
  omega

/-- The splitter's fields tile the text from the cursor to the final
cursor, and (for valid spans) every produced delimiter is non-empty. -/
lemma splitLoop_spec (text : List Nat) :
    ∀ (spans : List (Nat × Nat)) (c : Nat), c ≤ text.length →
      spansOK text.length c spans = true →
      c ≤ (splitLoop text c spans).2 ∧
      (splitLoop text c spans).2 ≤ text.length ∧
      catMap (fun f => f.text ++ f.delimiter) (splitLoop text c spans).1 =
        slice text c (splitLoop text c spans).2 ∧
      ∀ f ∈ (splitLoop text c spans).1, f.delimiter ≠ [] := by
  intro spans
  induction spans with
  | nil =>
    intro c hc _
    refine ⟨le_refl _, hc, ?_, ?_⟩
    · show ([] : List Nat) = slice text c c
      rw [slice]
      simp
    · intro f hf; cases hf
  | cons sp rest ih =>
    intro c hc hok
    obtain ⟨s, e⟩ := sp
    rw [spansOK] at hok
    simp only [Bool.and_eq_true, decide_eq_true_eq] at hok
    obtain ⟨⟨⟨hcs, hse⟩, hel⟩, hrest⟩ := hok
    have ihr := ih e (by omega) hrest
    rw [splitLoop]
    simp only
    refine ⟨by omega, ihr.2.1, ?_, ?_⟩
    · have h1 : slice text s e ++ slice text e (splitLoop text e rest).2 =
          slice text s (splitLoop text e rest).2 :=
        slice_append text (by omega) ihr.1
      have h2 : slice text c s ++ slice text s (splitLoop text e rest).2 =
          slice text c (splitLoop text e rest).2 :=
        slice_append text hcs (by omega)
      rw [catMap, ihr.2.2.1]
      show (slice text c s ++ slice text s e) ++ _ = _
      rw [List.append_assoc, h1, h2]
    · intro f hf
      rcases List.mem_cons.mp hf with h | h
      · subst h
        exact slice_ne_nil text hse hel
      · exact ihr.2.2.2 f h

/-- Emission of a suffix of the field list: every field followed by its
own trailing delimiter, except the last field which contributes only its
text (proof-side description of the composer's output). -/
def tailEmit : List Field → List Nat
  | [] => []
  | [f] => f.text
  | f :: g :: rest => f.text ++ f.delimiter ++ tailEmit (g :: rest)

lemma tailEmit_append_last (final : Field) :
    ∀ (F : List Field),
      tailEmit (F ++ [final]) =
        catMap (fun f => f.text ++ f.delimiter) F ++ final.text := by
  intro F
  induction F with
  | nil => rw [List.nil_append, tailEmit, catMap, List.nil_append]
  | cons f F ihF =>
    cases F with
    | nil =>
      show tailEmit [f, final] = _
      rw [tailEmit]
      simp [tailEmit, catMap]
    | cons g F' =>
      rw [List.cons_append, List.cons_append, tailEmit, ← List.cons_append,
        ihF]
      simp [catMap, List.append_assoc]

/-- The plain auto-join composer loop emits each suffix field followed by
its own delimiter (last field text only), when every non-final delimiter
is non-empty; the resulting state does not depend on the first/last
delimiter fallbacks. -/
lemma composeIndices_auto (fields : List Field)
    (hdel : ∀ k, k < fields.length - 1 →
      (fields.getD k ⟨[], []⟩).delimiter ≠ []) :
    ∀ (l : List Field) (j : Nat) (st : ComposeState),
      j + l.length = fields.length → l = fields.drop j →
      ∃ st', (∀ fd ld,
          composeIndices plainFieldsInstructions fields fd ld none true
            (fields.length - 1) (rangeList j l.length) st = .ok st') ∧
        st'.output = st.output ++ tailEmit l := by
  intro l
  induction l with
  | nil =>
    intro j st _ _
    exact ⟨st, fun _ _ => rfl, by rw [tailEmit]; simp⟩
  | cons f l' ihl =>
    intro j st hlen hdrop
    have hj : j < fields.length := by
      simp only [List.length_cons] at hlen
      omega
    have hdr := List.drop_eq_getElem_cons hj
    rw [← hdrop, List.cons.injEq] at hdr
    have hgetf : fields.getD j ⟨[], []⟩ = f := by
      rw [List.getD_eq_getElem _ _ hj, ← hdr.1]
    have hsome : fields[j]? = some f := by
      rw [List.getElem?_eq_getElem hj, ← hdr.1]
    have hdrop' : l' = fields.drop (j + 1) := hdr.2
    cases l' with
    | nil =>
      have hjlast : j = fields.length - 1 := by
        simp only [List.length_cons, List.length_nil] at hlen
        omega
      have hemit : ∀ fd ld,
          emitIndex plainFieldsInstructions fields fd ld none true
            (fields.length - 1) j st =
          .ok ⟨st.output ++ f.text,
            if f.text = [] then st.strict_return_passed else true,
            st.field_position⟩ := by
        intro fd ld
        have hc : (j = fields.length - 1) ↔ True := iff_of_true hjlast trivial
        by_cases ht : f.text = [] <;>
          simp [emitIndex, hj, hsome, hc, ht, plainFieldsInstructions]
      refine ⟨⟨st.output ++ f.text,
        if f.text = [] then st.strict_return_passed else true,
        st.field_position⟩, fun fd ld => ?_, by rw [tailEmit]⟩
      rw [show (f :: ([] : List Field)).length = 0 + 1 from rfl, rangeList,
        composeIndices, hemit fd ld]
      rfl
    | cons g l'' =>
      have hjmid : j < fields.length - 1 := by
        simp only [List.length_cons] at hlen
        omega
      have hdne : f.delimiter ≠ [] := by
        have h := hdel j hjmid
        rw [hgetf] at h
        exact h
      have hemit : ∀ fd ld,
          emitIndex plainFieldsInstructions fields fd ld none true
            (fields.length - 1) j st =
          .ok ⟨st.output ++ f.text ++ f.delimiter,
            if f.text = [] then st.strict_return_passed else true,
            st.field_position + 1⟩ := by
        intro fd ld
        have hc : (j = fields.length - 1) ↔ False :=
          iff_false_intro (by omega)
        by_cases ht : f.text = [] <;>
          simp [emitIndex, hj, hsome, hc, ht, hdne, plainFieldsInstructions]
      obtain ⟨st', hst', hout⟩ := ihl (j + 1)
        ⟨st.output ++ f.text ++ f.delimiter,
          if f.text = [] then st.strict_return_passed else true,
          st.field_position + 1⟩
        (by simp only [List.length_cons] at hlen ⊢; omega) hdrop'
      refine ⟨st', fun fd ld => ?_, ?_⟩
      · rw [show (f :: g :: l'').length = (g :: l'').length + 1 from rfl,
          rangeList, composeIndices, hemit fd ld]
        exact hst' fd ld
      · rw [hout]
        simp only
        rw [tailEmit]
        simp [List.append_assoc]


/-- C7 amended: splitting a per-line field-mode record on non-empty
delimiter matches (skip_empty off, no invert, no join, no selections)
and composing the resulting unit sequence reproduces the original record
bytes exactly — each field is emitted followed by its own trailing
delimiter. -/
theorem C7_split_rejoin_identity (text : List Nat)
    (spans : List (Nat × Nat)) (h : spansOK text.length 0 spans = true) :
    process_fields plainFieldsInstructions ⟨0, text, true, none⟩ spans =
      .ok text := by
  have hsplit := splitLoop_spec text spans 0 (Nat.zero_le _) h
  set F := (splitLoop text 0 spans).1 with hF
  set cur := (splitLoop text 0 spans).2 with hcur
  set final : Field := ⟨slice text cur text.length, []⟩ with hfinal
  have hfields : fieldsOf plainFieldsInstructions text spans = F ++ [final] := by
    simp only [fieldsOf]
    rw [if_neg (show ¬(plainFieldsInstructions.skip_empty = true) by decide),
      if_pos (Or.inr (show plainFieldsInstructions.input_mode ≠
        InputMode.WholeString by decide))]
  have hne : F ++ [final] ≠ [] := by simp
  have hlen1 : (F ++ [final]).length = F.length + 1 := by simp
  have hdel : ∀ k, k < (F ++ [final]).length - 1 →
      ((F ++ [final]).getD k ⟨[], []⟩).delimiter ≠ [] := by
    intro k hk
    rw [hlen1] at hk
    have hkF : k < F.length := by omega
    rw [List.getD_eq_getElem _ _ (by rw [hlen1]; omega),
      List.getElem_append_left hkF]
    exact hsplit.2.2.2 _ (List.getElem_mem hkF)
  obtain ⟨st', hloop, hout⟩ := composeIndices_auto (F ++ [final]) hdel
    (F ++ [final]) 0 ⟨[], false, 0⟩ (by omega) (by rw [List.drop_zero])
  have htext : tailEmit (F ++ [final]) = text := by
    rw [tailEmit_append_last, hsplit.2.2.1]
    show slice text 0 cur ++ slice text cur text.length = text
    rw [slice_append text (Nat.zero_le _) hsplit.2.1]
    rw [slice]
    simp
  have houtput : st'.output = text := by
    rw [hout, htext]
    rfl
  have harg : (F ++ [final]).length - 1 + 1 - 0 = (F ++ [final]).length := by
    rw [hlen1]
    omega
  have hcompose : ∀ fd ld,
      composeLoop plainFieldsInstructions (F ++ [final]) fd ld none
        [(0, (F ++ [final]).length - 1)] ⟨[], false, 0⟩ = .ok st' := by
    intro fd ld
    show (match composeIndices plainFieldsInstructions (F ++ [final]) fd ld
        none true ((F ++ [final]).length - 1)
        (rangeList 0 ((F ++ [final]).length - 1 + 1 - 0)) ⟨[], false, 0⟩ with
      | Except.error e => Except.error e
      | Except.ok st1 =>
        composeLoop plainFieldsInstructions (F ++ [final]) fd ld none []
          st1) = Except.ok st'
    rw [harg, hloop fd ld]
    rfl
  simp only [process_fields]
  rw [hfields]
  rw [if_neg (show ¬(plainFieldsInstructions.count = true) by decide)]
  rw [if_neg hne]
  split
  · next e heq =>
    have h' : (Except.ok ([] : List (Nat × Nat)) :
        Except String (List (Nat × Nat))) = .error e := heq
    cases h'
  · next ns heq =>
    have h' : (Except.ok ([] : List (Nat × Nat)) :
        Except String (List (Nat × Nat))) = .ok ns := heq
    injection h' with h'
    subst h'
    rw [if_pos (show plainFieldsInstructions.selections = [] from rfl)]
    split
    · next e heq2 =>
      rw [hcompose _ _] at heq2
      cases heq2
    · next st1 heq2 =>
      rw [hcompose _ _] at heq2
      injection heq2 with heq2
      subst heq2
      rw [if_neg (by
        rintro ⟨hc, _⟩
        revert hc
        decide)]
      rw [houtput]

/-- C7 witness: the identity at the record `"a,b"` with the delimiter
span `(1,2)`. -/
theorem C7_split_rejoin_identity_witness :
    process_fields plainFieldsInstructions ⟨0, [97, 44, 98], true, none⟩
      [(1, 2)] = .ok [97, 44, 98] :=
  C7_split_rejoin_identity [97, 44, 98] [(1, 2)] (by decide)

/-! ## C4: the strict-return check of the field composer -/

/-- Whether the emitted index `i` sets `strict_return_passed`: an
in-bounds field with non-empty text, or (out of bounds) a placeholder
substitution (placeholders are substituted only when one is configured
and `invert` is off). -/
def contributes (fields : List Field) (ph : Option (List Nat)) (inv : Bool)
    (i : Nat) : Bool :=
  if i < fields.length then
    decide ((fields.getD i ⟨[], []⟩).text ≠ [])
  else
    ph.isSome && !inv

/-- All unit indices the composer's selection loop visits. -/
def selIndices (sels : List (Nat × Nat)) : List Nat :=
  catMap (fun p => rangeList p.1 (p.2 + 1 - p.1)) sels

/-- One emit step either panics (only on a contributing out-of-bounds
index) or succeeds with `strict_return_passed` growing by exactly the
index's contribution. -/
lemma emitIndex_spec (ti : TransformInstructions) (fields : List Field)
    (fd ld : List Nat) (mw : Option (List Nat)) (ils : Bool) (se i : Nat)
    (st : ComposeState) :
    (emitIndex ti fields fd ld mw ils se i st =
        .error "panic: index out of bounds" ∧
      contributes fields ti.placeholder ti.invert i = true) ∨
    (∃ st', emitIndex ti fields fd ld mw ils se i st = .ok st' ∧
      st'.strict_return_passed =
        (st.strict_return_passed ||
          contributes fields ti.placeholder ti.invert i)) := by
  by_cases hi : i < fields.length
  · right
    by_cases hl : (ils = true ∧ i = se)
    · obtain ⟨hils, hise⟩ := hl
      subst hise
      subst hils
      have hgd : fields.getD i ⟨[], []⟩ = fields[i] :=
        List.getD_eq_getElem _ _ hi
      by_cases ht : fields[i].text = [] <;>
        simp [emitIndex, contributes, hi, hgd, ht]
    · have hgd : fields.getD i ⟨[], []⟩ = fields[i] :=
        List.getD_eq_getElem _ _ hi
      by_cases ht : fields[i].text = [] <;>
        simp [emitIndex, contributes, hi, hgd, ht, hl]
  · rcases hp : ti.placeholder with _ | p
    · right
      refine ⟨st, ?_, ?_⟩
      · simp [emitIndex, hi, hp]
      · simp [contributes, hi, hp]
    · by_cases hinv : ti.invert = true
      · right
        refine ⟨st, ?_, ?_⟩
        · simp [emitIndex, hi, hp, hinv]
        · simp [contributes, hi, hp, hinv]
      · by_cases hl : (ils = true ∧ i = se)
        · obtain ⟨hils, hise⟩ := hl
          subst hise
          subst hils
          right
          refine ⟨⟨st.output ++ p, true, st.field_position⟩, ?_, ?_⟩
          · simp [emitIndex, hi, hp, hinv]
          · simp [contributes, hi, hp, hinv]
        · left
          constructor
          · simp [emitIndex, hi, hp, hinv, hl]
          · simp [contributes, hi, hp, hinv]

/-- The inner index loop: it panics only when some visited index
contributes, and otherwise accumulates exactly the disjunction of the
visited contributions into `strict_return_passed`. -/
lemma composeIndices_spec (ti : TransformInstructions) (fields : List Field)
    (fd ld : List Nat) (mw : Option (List Nat)) (ils : Bool) (se : Nat) :
    ∀ (idxs : List Nat) (st : ComposeState),
      (composeIndices ti fields fd ld mw ils se idxs st =
          .error "panic: index out of bounds" ∧
        idxs.any (contributes fields ti.placeholder ti.invert) = true) ∨
      (∃ st', composeIndices ti fields fd ld mw ils se idxs st = .ok st' ∧
        st'.strict_return_passed =
          (st.strict_return_passed ||
            idxs.any (contributes fields ti.placeholder ti.invert))) := by
  intro idxs
  induction idxs with
  | nil =>
    intro st
    right
    exact ⟨st, rfl, by simp⟩
  | cons i rest ih =>
    intro st
    rcases emitIndex_spec ti fields fd ld mw ils se i st with ⟨herr, hc⟩ |
      ⟨st1, hok, hp1⟩
    · left
      constructor
      · rw [composeIndices, herr]
      · simp [hc]
    · rcases ih st1 with ⟨herr2, hany⟩ | ⟨st2, hok2, hp2⟩
      · left
        constructor
        · rw [composeIndices, hok]
          exact herr2
        · simp [hany]
      · right
        refine ⟨st2, ?_, ?_⟩
        · rw [composeIndices, hok]
          exact hok2
        · rw [hp2, hp1, List.any_cons, Bool.or_assoc]

/-- The outer selection loop: panic only when some selected index
contributes; otherwise `strict_return_passed` ends as exactly "some
selected index contributed". -/
lemma composeLoop_spec (ti : TransformInstructions) (fields : List Field)
    (fd ld : List Nat) (mw : Option (List Nat)) :
    ∀ (sels : List (Nat × Nat)) (st : ComposeState),
      (composeLoop ti fields fd ld mw sels st =
          .error "panic: index out of bounds" ∧
        (selIndices sels).any
          (contributes fields ti.placeholder ti.invert) = true) ∨
      (∃ st', composeLoop ti fields fd ld mw sels st = .ok st' ∧
        st'.strict_return_passed =
          (st.strict_return_passed ||
            (selIndices sels).any
              (contributes fields ti.placeholder ti.invert))) := by
  intro sels
  induction sels with
  | nil =>
    intro st
    right
    exact ⟨st, rfl, by simp [selIndices, catMap]⟩
  | cons sel rest ih =>
    intro st
    have hsi : selIndices (sel :: rest) =
        rangeList sel.1 (sel.2 + 1 - sel.1) ++ selIndices rest := rfl
    rcases composeIndices_spec ti fields fd ld mw (decide (rest = [])) sel.2
        (rangeList sel.1 (sel.2 + 1 - sel.1)) st with ⟨herr, hany⟩ |
      ⟨st1, hok, hp1⟩
    · left
      constructor
      · rw [composeLoop, herr]
      · rw [hsi, List.any_append, hany, Bool.true_or]
    · rcases ih st1 with ⟨herr2, hany2⟩ | ⟨st2, hok2, hp2⟩
      · left
        constructor
        · rw [composeLoop, hok]
          exact herr2
        · rw [hsi, List.any_append, hany2, Bool.or_true]
      · right
        refine ⟨st2, ?_, ?_⟩
        · rw [composeLoop, hok]
          exact hok2
        · rw [hp2, hp1, hsi, List.any_append, Bool.or_assoc]

/-- The selection list the composer loops over (the `let selections :=`
of `process_fields`): the whole-sequence selection for an empty
configured list, else the normalised list, inverted when requested. -/
def chosenSelections (ti : TransformInstructions) (ns : List (Nat × Nat))
    (len : Nat) : List (Nat × Nat) :=
  if ti.selections = [] then [(0, len - 1)]
  else if ¬ti.invert then ns
  else invert_selections ns len

/-- C4 amended: under `strict_return`, composition fails with the
`EmptyResult` error **iff** no selected index contributed — where both
non-empty in-bounds field text and placeholder substitutions count as
contributions; when some index contributes, composition returns output
(or hits the composer's out-of-bounds delimiter panic on a non-final
placeholder index), never the `EmptyResult` error. -/
theorem C4_strict_return_iff (ti : TransformInstructions) (record : Record)
    (spans : List (Nat × Nat)) (ns : List (Nat × Nat))
    (hsr : ti.strict_return = true) (hcount : ti.count = false)
    (hfne : fieldsOf ti record.bytes spans ≠ [])
    (hns : normalise_selections ti.selections
      (fieldsOf ti record.bytes spans).length ti.placeholder.isSome
      ti.strict_bounds ti.strict_range_order = .ok ns) :
    ((process_fields ti record spans =
        .error "strict returns error: no valid output") ↔
      (selIndices (chosenSelections ti ns
          (fieldsOf ti record.bytes spans).length)).any
        (contributes (fieldsOf ti record.bytes spans) ti.placeholder
          ti.invert) = false) ∧
    ((selIndices (chosenSelections ti ns
          (fieldsOf ti record.bytes spans).length)).any
        (contributes (fieldsOf ti record.bytes spans) ti.placeholder
          ti.invert) = true →
      (∃ out, process_fields ti record spans = .ok out) ∨
      process_fields ti record spans =
        .error "panic: index out of bounds") := by
  have hred : process_fields ti record spans =
      (match composeLoop ti (fieldsOf ti record.bytes spans)
        ((((fieldsOf ti record.bytes spans).find?
          (fun f => f.delimiter ≠ [])).map Field.delimiter).getD [])
        ((((fieldsOf ti record.bytes spans).reverse.find?
          (fun f => f.delimiter ≠ [])).map Field.delimiter).getD [])
        record.field_widths
        (chosenSelections ti ns (fieldsOf ti record.bytes spans).length)
        ⟨[], false, 0⟩ with
      | .error e => .error e
      | .ok st =>
        if ti.strict_return = true ∧ ¬st.strict_return_passed = true then
          .error "strict returns error: no valid output"
        else .ok st.output) := by
    simp only [process_fields]
    rw [if_neg (by rw [hcount]; simp)]
    rw [if_neg hfne]
    split
    · next e heq =>
      rw [hns] at heq
      cases heq
    · next ns' heq =>
      rw [hns] at heq
      injection heq with heq
      subst heq
      rfl
  rcases composeLoop_spec ti (fieldsOf ti record.bytes spans)
      ((((fieldsOf ti record.bytes spans).find?
        (fun f => f.delimiter ≠ [])).map Field.delimiter).getD [])
      ((((fieldsOf ti record.bytes spans).reverse.find?
        (fun f => f.delimiter ≠ [])).map Field.delimiter).getD [])
      record.field_widths
      (chosenSelections ti ns (fieldsOf ti record.bytes spans).length)
      ⟨[], false, 0⟩ with ⟨herr, hany⟩ | ⟨st', hok, hp⟩
  · have hred2 : process_fields ti record spans =
        .error "panic: index out of bounds" := by
      rw [hred, herr]
    constructor
    · rw [hred2]
      constructor
      · intro h
        injection h with h
        exact absurd h (by decide)
      · intro h
        rw [hany] at h
        cases h
    · intro _
      exact Or.inr hred2
  · have hp' : st'.strict_return_passed =
        (selIndices (chosenSelections ti ns
          (fieldsOf ti record.bytes spans).length)).any
          (contributes (fieldsOf ti record.bytes spans) ti.placeholder
            ti.invert) := by
      rw [hp]
      simp
    have hred2 : process_fields ti record spans =
        (if ti.strict_return = true ∧ ¬st'.strict_return_passed = true then
          .error "strict returns error: no valid output"
        else .ok st'.output) := by
      rw [hred, hok]
    cases hb : (selIndices (chosenSelections ti ns
        (fieldsOf ti record.bytes spans).length)).any
        (contributes (fieldsOf ti record.bytes spans) ti.placeholder
          ti.invert) with
    | false =>
      have hpass : st'.strict_return_passed = false := by rw [hp', hb]
      have hres : process_fields ti record spans =
          .error "strict returns error: no valid output" := by
        rw [hred2, if_pos ⟨hsr, by rw [hpass]; simp⟩]
      constructor
      · rw [hres]
        exact ⟨fun _ => rfl, fun _ => rfl⟩
      · intro h
        cases h
    | true =>
      have hpass : st'.strict_return_passed = true := by rw [hp', hb]
      have hres : process_fields ti record spans = .ok st'.output := by
        rw [hred2, if_neg (by rintro ⟨_, hc⟩; exact hc hpass)]
      constructor
      · rw [hres]
        constructor
        · intro h
          cases h
        · intro h
          cases h
      · intro _
        exact Or.inl ⟨st'.output, hres⟩

/-- C4 witness: the iff instantiated at the `"hello"` record with the
out-of-bounds selection `10` and placeholder `X` — the placeholder
contribution makes the right side false, matching the successful
composition. -/
theorem C4_strict_return_iff_witness :
    (process_fields strictReturnPlaceholderInstructions
        ⟨0, [104, 101, 108, 108, 111], true, none⟩ [] =
      .error "strict returns error: no valid output") ↔
      (selIndices [(9, 9)]).any
        (contributes (fieldsOf strictReturnPlaceholderInstructions
          [104, 101, 108, 108, 111] []) (some [88]) false) = false :=
  (C4_strict_return_iff strictReturnPlaceholderInstructions
    ⟨0, [104, 101, 108, 108, 111], true, none⟩ [] [(9, 9)]
    rfl rfl (by decide) rfl).1

/-! ## C1: the ordered collector -/

/-- The index tag of a result chunk. -/
def chunkStart : ResultChunk → Nat
  | ResultChunk.ok s _ => s
  | ResultChunk.err i _ => i

/-- The chunks a pending map represents. -/
def pendingChunks (m : List (Nat × List OutputRecord)) : List ResultChunk :=
  m.map (fun e => ResultChunk.ok e.1 e.2)

/-- The flush loop has stopped: the minimal pending key (the head of the
sorted association list) is not the next expected index. -/
def flushStopped (pending : List (Nat × List OutputRecord)) (next : Nat) :
    Prop :=
  ∀ e ∈ pending.head?, e.1 ≠ next

lemma chunksOf_mem_ok :
    ∀ (sizes : List Nat) (a : Nat) (l : List OutputRecord)
      (c : ResultChunk), c ∈ chunksOf a l sizes →
      ∃ s g, c = ResultChunk.ok s g := by
  intro sizes
  induction sizes with
  | nil => intro a l c hc; cases hc
  | cons n ns ih =>
    intro a l c hc
    rcases List.mem_cons.mp hc with h | h
    · exact ⟨a, l.take n, h⟩
    · exact ih (a + n) (l.drop n) c h

lemma chunksOf_start_ge :
    ∀ (sizes : List Nat) (a : Nat) (l : List OutputRecord)
      (s : Nat) (g : List OutputRecord),
      ResultChunk.ok s g ∈ chunksOf a l sizes → a ≤ s := by
  intro sizes
  induction sizes with
  | nil => intro a l s g hc; cases hc
  | cons n ns ih =>
    intro a l s g hc
    rcases List.mem_cons.mp hc with h | h
    · injection h with h1 _
      omega
    · have := ih (a + n) (l.drop n) s g h
      omega

lemma chunksOf_starts_nodup :
    ∀ (sizes : List Nat) (a : Nat) (l : List OutputRecord),
      (∀ m ∈ sizes, 0 < m) →
      ((chunksOf a l sizes).map chunkStart).Nodup := by
  intro sizes
  induction sizes with
  | nil => intro a l _; exact List.Pairwise.nil
  | cons n ns ih =>
    intro a l hpos
    rw [chunksOf, List.map_cons]
    refine List.Pairwise.cons ?_ (ih (a + n) (l.drop n)
      (fun m hm => hpos m (by simp [hm])))
    intro x hx
    obtain ⟨c, hc, hcs⟩ := List.mem_map.mp hx
    obtain ⟨s, g, rfl⟩ := chunksOf_mem_ok ns (a + n) (l.drop n) c hc
    have hge := chunksOf_start_ge ns (a + n) (l.drop n) s g hc
    have hn := hpos n (by simp)
    rw [← hcs]
    show chunkStart (ResultChunk.ok a (l.take n)) ≠ chunkStart _
    show a ≠ s
    omega

lemma pendingChunks_cons (k : Nat) (v : List OutputRecord)
    (m : List (Nat × List OutputRecord)) :
    pendingChunks ((k, v) :: m) = ResultChunk.ok k v :: pendingChunks m :=
  rfl

lemma pendingInsert_perm (k : Nat) (v : List OutputRecord) :
    ∀ (m : List (Nat × List OutputRecord)),
      (∀ v' , (k, v') ∉ m) →
      (pendingChunks (pendingInsert k v m)).Perm
        (ResultChunk.ok k v :: pendingChunks m) := by
  intro m
  induction m with
  | nil => intro _; exact List.Perm.refl _
  | cons e m ih =>
    intro hk
    obtain ⟨k', v'⟩ := e
    rw [pendingInsert]
    by_cases h1 : k < k'
    · rw [if_pos h1]
      exact List.Perm.refl _
    · rw [if_neg h1]
      have h2 : k ≠ k' := by
        intro he
        exact hk v' (by rw [he]; simp)
      rw [if_neg h2, pendingChunks_cons, pendingChunks_cons]
      have ihm := ih (fun v'' hv => hk v'' (by simp [hv]))
      exact (ihm.cons _).trans (List.Perm.swap _ _ _)

lemma pendingInsert_mem (k : Nat) (v : List OutputRecord) :
    ∀ (m : List (Nat × List OutputRecord)) (y : Nat × List OutputRecord),
      y ∈ pendingInsert k v m → y = (k, v) ∨ y ∈ m := by
  intro m
  induction m with
  | nil =>
    intro y hy
    rcases List.mem_singleton.mp hy with h
    exact Or.inl h
  | cons e m ih =>
    intro y hy
    obtain ⟨k', v'⟩ := e
    rw [pendingInsert] at hy
    by_cases h1 : k < k'
    · rw [if_pos h1] at hy
      rcases List.mem_cons.mp hy with h | h
      · exact Or.inl h
      · exact Or.inr h
    · rw [if_neg h1] at hy
      by_cases h2 : k = k'
      · rw [if_pos h2] at hy
        rcases List.mem_cons.mp hy with h | h
        · exact Or.inl h
        · exact Or.inr (List.mem_cons_of_mem _ h)
      · rw [if_neg h2] at hy
        rcases List.mem_cons.mp hy with h | h
        · exact Or.inr (by rw [h]; exact List.mem_cons_self _ _)
        · rcases ih y h with h' | h'
          · exact Or.inl h'
          · exact Or.inr (List.mem_cons_of_mem _ h')

lemma pendingInsert_sorted (k : Nat) (v : List OutputRecord) :
    ∀ (m : List (Nat × List OutputRecord)),
      m.Pairwise (fun x y => x.1 < y.1) →
      (∀ v', (k, v') ∉ m) →
      (pendingInsert k v m).Pairwise (fun x y => x.1 < y.1) := by
  intro m
  induction m with
  | nil => intro _ _; simp [pendingInsert]
  | cons e m ih =>
    intro hs hk
    obtain ⟨k', v'⟩ := e
    rw [pendingInsert]
    by_cases h1 : k < k'
    · rw [if_pos h1]
      refine List.Pairwise.cons ?_ hs
      intro y hy
      rcases List.mem_cons.mp hy with h | h
      · rw [h]; exact h1
      · have := List.rel_of_pairwise_cons hs h
        simp only at this ⊢
        omega
    · rw [if_neg h1]
      have h2 : k ≠ k' := by
        intro he
        exact hk v' (by rw [he]; simp)
      rw [if_neg h2]
      refine List.Pairwise.cons ?_ (ih hs.of_cons
        (fun v'' hv => hk v'' (by simp [hv])))
      intro y hy
      rcases pendingInsert_mem k v m y hy with h | h
      · rw [h]
        show k' < k
        omega
      · exact List.rel_of_pairwise_cons hs h

/-- The collector invariant: some positive chunk sizes cut the not-yet-flushed
suffix of `recs`; the pending map together with the chunks still to arrive is
a permutation of that cut; the pending map is sorted; and the writer pair is
exactly the in-order flush of the already-consumed prefix. -/
def CollectInv (θ : Nat) (t : Option Nat) (recs : List OutputRecord)
    (st : CollectorState) (rest : List ResultChunk) : Prop :=
  ∃ sizes : List Nat,
    (∀ m ∈ sizes, 0 < m) ∧
    sizes.sum + st.next_index = recs.length ∧
    (pendingChunks st.pending ++ rest).Perm
      (chunksOf st.next_index (recs.drop st.next_index) sizes) ∧
    st.pending.Pairwise (fun x y => x.1 < y.1) ∧
    (st.written, st.buffer) = run_output θ t (recs.take st.next_index)

lemma flush_run_spec (θ : Nat) (t : Option Nat) (recs : List OutputRecord)
    (rest : List ResultChunk) :
    ∀ (pend : List (Nat × List OutputRecord)) (next : Nat) (sizes : List Nat),
      pend.Pairwise (fun x y => x.1 < y.1) →
      (∀ m ∈ sizes, 0 < m) →
      sizes.sum + next = recs.length →
      (pendingChunks pend ++ rest).Perm
        (chunksOf next (recs.drop next) sizes) →
      CollectInv θ t recs
        (flush_run θ t pend next (run_output θ t (recs.take next))) rest ∧
      flushStopped
        (flush_run θ t pend next (run_output θ t (recs.take next))).pending
        (flush_run θ t pend next
          (run_output θ t (recs.take next))).next_index := by
  intro pend
  induction pend with
  | nil =>
    intro next sizes hs hpos hsum hperm
    rw [flush_run]
    constructor
    · exact ⟨sizes, hpos, hsum, hperm, List.Pairwise.nil, rfl⟩
    · intro e he
      exact absurd he (by simp)
  | cons hd pendrest ih =>
    intro next sizes hs hpos hsum hperm
    obtain ⟨k, outs⟩ := hd
    rw [flush_run]
    by_cases hk : k = next
    · rw [if_pos hk]
      subst hk
      rw [pendingChunks_cons, List.cons_append] at hperm
      cases sizes with
      | nil =>
        have h0 : chunksOf k (recs.drop k) [] = [] := rfl
        rw [h0] at hperm
        have := hperm.eq_nil
        simp at this
      | cons n ns =>
        have hrhs : chunksOf k (recs.drop k) (n :: ns) =
            ResultChunk.ok k ((recs.drop k).take n) ::
              chunksOf (k + n) ((recs.drop k).drop n) ns := rfl
        rw [hrhs] at hperm
        have hn : 0 < n := hpos n (by simp)
        have hmem : ResultChunk.ok k outs ∈
            ResultChunk.ok k ((recs.drop k).take n) ::
              chunksOf (k + n) ((recs.drop k).drop n) ns :=
          hperm.mem_iff.mp (List.mem_cons_self _ _)
        have houts : outs = (recs.drop k).take n := by
          rcases List.mem_cons.mp hmem with h | h
          · rw [ResultChunk.ok.injEq] at h
            exact h.2
          · have := chunksOf_start_ge ns (k + n) ((recs.drop k).drop n)
              k outs h
            omega
        have hdrop : (recs.drop k).drop n = recs.drop (k + n) := by
          rw [List.drop_drop, Nat.add_comm]
        have hsum' : ns.sum + (k + n) = recs.length := by
          rw [List.sum_cons] at hsum
          omega
        have hlen : outs.length = n := by
          rw [houts, List.length_take, List.length_drop]
          omega
        have hperm' : (pendingChunks pendrest ++ rest).Perm
            (chunksOf (k + n) (recs.drop (k + n)) ns) := by
          rw [← hdrop]
          refine List.Perm.cons_inv (a := ResultChunk.ok k outs) ?_
          rw [houts] at hperm ⊢
          exact hperm
        have hfold : outs.foldl (push_pair θ t)
            (run_output θ t (recs.take k)) =
            run_output θ t (recs.take (k + n)) := by
          rw [run_output, run_output, List.take_add, List.foldl_append, houts]
        rw [hlen, hfold]
        exact ih (k + n) ns hs.of_cons
          (fun m hm => hpos m (by simp [hm])) hsum' hperm'
    · rw [if_neg hk]
      constructor
      · exact ⟨sizes, hpos, hsum, hperm, hs, rfl⟩
      · intro e he
        have heq : (k, outs) = e := by
          simpa using he
        rw [← heq]
        exact hk

lemma collect_spec (θ : Nat) (t : Option Nat) (mode : InputMode)
    (recs : List OutputRecord) :
    ∀ (arr : List ResultChunk) (st : CollectorState),
      CollectInv θ t recs st arr →
      flushStopped st.pending st.next_index →
      collect θ t mode arr st =
        .ok ⟨recs.length, [], (run_output θ t recs).1,
             (run_output θ t recs).2⟩ := by
  intro arr
  induction arr with
  | nil =>
    intro st hinv hstop
    obtain ⟨sizes, hpos, hsum, hperm, hsort, hwb⟩ := hinv
    rw [List.append_nil] at hperm
    have hpend : st.pending = [] ∧ sizes = [] := by
      cases sizes with
      | nil =>
        have h0 : chunksOf st.next_index (recs.drop st.next_index) [] = [] :=
          rfl
        rw [h0] at hperm
        have := hperm.eq_nil
        exact ⟨List.map_eq_nil_iff.mp this, rfl⟩
      | cons n ns =>
        exfalso
        have hrhs : chunksOf st.next_index (recs.drop st.next_index)
            (n :: ns) =
            ResultChunk.ok st.next_index
                ((recs.drop st.next_index).take n) ::
              chunksOf (st.next_index + n)
                ((recs.drop st.next_index).drop n) ns := rfl
        have hmem : ResultChunk.ok st.next_index
            ((recs.drop st.next_index).take n) ∈ pendingChunks st.pending :=
          hperm.mem_iff.mpr (by rw [hrhs]; exact List.mem_cons_self _ _)
        obtain ⟨e, hemem, heq⟩ := List.mem_map.mp hmem
        rw [ResultChunk.ok.injEq] at heq
        cases hpd : st.pending with
        | nil => rw [hpd] at hemem; cases hemem
        | cons e0 tl =>
          have hk0 : e0.1 ≠ st.next_index := by
            have := hstop e0
            rw [hpd] at this
            exact this (by simp)
          have hk0ge : st.next_index ≤ e0.1 := by
            have hm : ResultChunk.ok e0.1 e0.2 ∈ pendingChunks st.pending :=
              List.mem_map_of_mem _ (by rw [hpd]; exact List.mem_cons_self _ _)
            have := hperm.mem_iff.mp hm
            exact chunksOf_start_ge (n :: ns) st.next_index
              (recs.drop st.next_index) e0.1 e0.2 this
          rw [hpd] at hemem
          rcases List.mem_cons.mp hemem with h | h
          · rw [h] at heq
            exact hk0 heq.1
          · have := List.rel_of_pairwise_cons (by rw [hpd] at hsort; exact hsort) h
            omega
    obtain ⟨hp, hsz⟩ := hpend
    rw [hsz, List.sum_nil] at hsum
    have hc0 : collect θ t mode [] st = .ok st := rfl
    rw [hc0]
    obtain ⟨n0, p0, w0, b0⟩ := st
    simp only at hp hsum hwb ⊢
    subst hp
    have hn0 : n0 = recs.length := by omega
    subst hn0
    rw [List.take_length] at hwb
    have hw : w0 = (run_output θ t recs).1 := by rw [← hwb]
    have hb : b0 = (run_output θ t recs).2 := by rw [← hwb]
    rw [hw, hb]
  | cons c arest ih =>
    intro st hinv hstop
    obtain ⟨sizes, hpos, hsum, hperm, hsort, hwb⟩ := hinv
    have hcmem : c ∈ chunksOf st.next_index (recs.drop st.next_index) sizes :=
      hperm.mem_iff.mp (List.mem_append_right _ (List.mem_cons_self _ _))
    obtain ⟨s, g, rfl⟩ := chunksOf_mem_ok sizes _ _ c hcmem
    have hknotin : ∀ v', (s, v') ∉ st.pending := by
      intro v' hv
      have hnodup :
          ((pendingChunks st.pending ++
            ResultChunk.ok s g :: arest).map chunkStart).Nodup :=
        ((hperm.map chunkStart).nodup_iff).mpr
          (chunksOf_starts_nodup sizes _ _ hpos)
      rw [List.map_append] at hnodup
      have hdisj := (List.nodup_append.mp hnodup).2.2
      refine hdisj (a := s) ?_ ?_
      · exact List.mem_map.mpr
          ⟨ResultChunk.ok s v', List.mem_map_of_mem _ hv, rfl⟩
      · rw [List.map_cons]
        exact List.mem_cons_self _ _
    have hsort' := pendingInsert_sorted s g st.pending hsort hknotin
    have hperm' : (pendingChunks (pendingInsert s g st.pending) ++ arest).Perm
        (chunksOf st.next_index (recs.drop st.next_index) sizes) := by
      refine List.Perm.trans ?_ hperm
      refine List.Perm.trans
        ((pendingInsert_perm s g st.pending hknotin).append_right arest) ?_
      rw [List.cons_append]
      exact List.perm_middle.symm
    have hcc : collect θ t mode (ResultChunk.ok s g :: arest) st =
        collect θ t mode arest
          (flush_run θ t (pendingInsert s g st.pending) st.next_index
            (st.written, st.buffer)) := rfl
    rw [hcc, hwb]
    obtain ⟨hinv', hstop'⟩ := flush_run_spec θ t recs arest
      (pendingInsert s g st.pending) st.next_index sizes hsort' hpos hsum
      hperm'
    exact ih _ hinv' hstop'

lemma push_pair_stream (θ : Nat) (t : Option Nat) (wb : List Nat × List Nat)
    (r : OutputRecord) :
    (push_pair θ t wb r).1 ++ (push_pair θ t wb r).2 =
      wb.1 ++ (wb.2 ++ emit_record t r) := by
  by_cases h : θ ≤ wb.2.length + (emit_record t r).length
  · simp [push_pair, h]
  · simp [push_pair, h]

lemma run_output_stream (θ : Nat) (t : Option Nat) :
    ∀ (recs : List OutputRecord) (wb : List Nat × List Nat),
      (recs.foldl (push_pair θ t) wb).1 ++
        (recs.foldl (push_pair θ t) wb).2 =
        wb.1 ++ (wb.2 ++ catMap (emit_record t) recs) := by
  intro recs
  induction recs with
  | nil => intro wb; simp [catMap]
  | cons r rs ih =>
    intro wb
    rw [List.foldl_cons, ih (push_pair θ t wb r), ← List.append_assoc,
      push_pair_stream]
    show _ = wb.1 ++ (wb.2 ++ (emit_record t r ++ catMap (emit_record t) rs))
    simp [List.append_assoc]

/-- C1: collector ordering.  For every complete, gap-free cut of the ordered
output records into positively-sized chunks starting at record index 0, and
for EVERY permutation of the order in which those chunks arrive, `get_results`
succeeds with the same byte stream `final_stream`, which lists the records'
bytes in ascending record-index order: for the per-line and zero-terminated
modes it is exactly the concatenation of the per-record emissions in input
order (in whole-string mode a trailing newline may additionally be appended).
The emitted byte sequence is therefore independent of arrival order. -/
theorem C1_collector_ordering (θ : Nat) (oi : OutputInstructions)
    (recs : List OutputRecord) (sizes : List Nat)
    (arrivals : List ResultChunk)
    (hpos : ∀ m ∈ sizes, 0 < m)
    (hsum : sizes.sum = recs.length)
    (hperm : arrivals.Perm (chunksOf 0 recs sizes))
    (hne : recs ≠ []) :
    get_results θ oi arrivals = .ok (final_stream θ oi.input_mode recs) ∧
    (oi.input_mode ≠ InputMode.WholeString →
      final_stream θ oi.input_mode recs =
        catMap (emit_record (record_terminator oi.input_mode)) recs) := by
  have hn : recs.length ≠ 0 := by
    intro h
    exact hne (List.length_eq_zero.mp h)
  constructor
  · have hinv : CollectInv θ (record_terminator oi.input_mode) recs
        ⟨0, [], [], []⟩ arrivals := by
      refine ⟨sizes, hpos, ?_, ?_, List.Pairwise.nil, rfl⟩
      · show sizes.sum + 0 = recs.length
        omega
      · show (pendingChunks [] ++ arrivals).Perm (chunksOf 0 (recs.drop 0) sizes)
        rw [List.drop_zero]
        exact hperm
    have hstop : flushStopped
        (⟨0, [], [], []⟩ : CollectorState).pending
        (⟨0, [], [], []⟩ : CollectorState).next_index := by
      intro e he
      exact absurd he (by simp [flushStopped])
    have hcol := collect_spec θ (record_terminator oi.input_mode)
      oi.input_mode recs arrivals ⟨0, [], [], []⟩ hinv hstop
    simp only [get_results]
    split
    · next e heq =>
      rw [hcol] at heq
      cases heq
    · next st heq =>
      rw [hcol] at heq
      rw [Except.ok.injEq] at heq
      subst heq
      have hc1 : ¬ (recs.length = 0 ∧ oi.count = true) := fun h => hn h.1
      have hc2 : ¬ (recs.length = 0 ∧ oi.strict_return = true) :=
        fun h => hn h.1
      have hc3 : ¬ (recs.length = 0 ∧ oi.strict_bounds = true ∧
          oi.selections ≠ []) := fun h => hn h.1
      simp only [drain_rest, List.length_nil]
      rw [if_neg (by simp)]
      simp only [if_neg hc1, if_neg hc2, if_neg hc3]
      rfl
  · intro hmode
    simp only [final_stream]
    rw [if_neg (by
      rintro ⟨h0, _⟩
      exact hmode h0)]
    have := run_output_stream θ (record_terminator oi.input_mode) recs ([], [])
    rw [run_output]
    rw [this]
    rfl

theorem C1_collector_ordering_witness :
    get_results 65536 ⟨false, false, false, InputMode.PerLine, []⟩
        [ResultChunk.ok 2 [⟨[99], false⟩],
         ResultChunk.ok 0 [⟨[97], true⟩, ⟨[98], true⟩]] =
      .ok (final_stream 65536 InputMode.PerLine
        [⟨[97], true⟩, ⟨[98], true⟩, ⟨[99], false⟩]) :=
  (C1_collector_ordering 65536 ⟨false, false, false, InputMode.PerLine, []⟩
    [⟨[97], true⟩, ⟨[98], true⟩, ⟨[99], false⟩] [2, 1]
    [ResultChunk.ok 2 [⟨[99], false⟩],
     ResultChunk.ok 0 [⟨[97], true⟩, ⟨[98], true⟩]]
    (by decide) (by decide) (by decide) (by decide)).1

end Splitby
